import Mathlib

/-!
Shallow embedding of the SiteExtractor truth-extraction core
(`src/truth_extractor`): the Candidate/FieldResult data model, scoring and
deduplication (`resolve/scoring.py`), validators (`resolve/validators.py`),
the field resolver (`resolve/resolver.py`), the orchestrator's service-merge
(`orchestrator.py`), and the BFS crawler (`crawl/crawler.py`).

Python floats are modelled as rationals, Python strings as Lean strings
(with the character-level operations re-implemented on `List Char` to mirror
Python semantics), Python dicts keyed by strings as association lists, and
Python sets as lists managed with membership checks.  External collaborators
(DNS, phone-number library, HTTP fetching, HTML parsing, URL parsing,
WCAG-contrast arithmetic on floats) are oracles: explicit function
parameters, since their internals live outside the repository.
-/

/-! ### Python string primitives -/

/-- Python `str.lower` restricted to ASCII, as used on the repository's data. -/
def pyLower (cs : List Char) : List Char := cs.map Char.toLower

/-- Python `str.strip()`: drop leading and trailing whitespace. -/
def pyStrip (cs : List Char) : List Char :=
  ((cs.dropWhile Char.isWhitespace).reverse.dropWhile Char.isWhitespace).reverse

/-- Python `str.split(sep)` for a one-character separator (keeps empty parts). -/
def pySplitCharAux (sep : Char) : List Char → List Char → List (List Char)
  | [], acc => [acc.reverse]
  | c :: cs, acc =>
    if c = sep then acc.reverse :: pySplitCharAux sep cs []
    else pySplitCharAux sep cs (c :: acc)

def pySplitChar (sep : Char) (cs : List Char) : List (List Char) :=
  pySplitCharAux sep cs []

/-- Python `str.split()` (no argument): split on whitespace runs, no empties. -/
def pySplitWsAux : List Char → List Char → List (List Char)
  | [], acc => if acc.isEmpty then [] else [acc.reverse]
  | c :: cs, acc =>
    if c.isWhitespace then
      if acc.isEmpty then pySplitWsAux cs [] else acc.reverse :: pySplitWsAux cs []
    else pySplitWsAux cs (c :: acc)

def pySplitWs (cs : List Char) : List (List Char) := pySplitWsAux cs []

/-- Python `sep.join(parts)` at character-list level. -/
def pyJoin (sep : List Char) (parts : List (List Char)) : List Char :=
  match parts with
  | [] => []
  | p :: ps => p ++ (ps.foldl (fun acc q => acc ++ sep ++ q) [])

/-- Python `"; ".join(notes)` over strings. -/
def pyJoinStr (sep : String) (parts : List String) : String :=
  ⟨pyJoin sep.data (parts.map String.data)⟩

/-- Case-insensitive prefix test (both sides lowered), on reversed lists it
serves as a case-insensitive suffix test. -/
def ciStartsWith : List Char → List Char → Bool
  | [], _ => true
  | _ :: _, [] => false
  | p :: ps, c :: cs => p.toLower = c.toLower && ciStartsWith ps cs

/-! ### Data model (`extraction/models.py`) -/

/-- `Provenance`: source information for an extracted value. -/
structure Provenance where
  url : String
  path : String
deriving DecidableEq

/-- `Candidate`: a candidate value for a field with scoring information.
The Python `value : Any` is typed per field family. -/
structure Candidate (α : Type) where
  value : α
  source_weight : ℚ
  method_weight : ℚ
  validator_bonus : ℚ := 0
  provenance : List Provenance := []
  notes : String := ""
deriving DecidableEq

/-- `Candidate.score`: `min(1.0, source_weight * method_weight + validator_bonus)`.
Note the source has no lower clamp. -/
def Candidate.score {α : Type} (c : Candidate α) : ℚ :=
  min 1 (c.source_weight * c.method_weight + c.validator_bonus)

/-- `FieldResult`: value (None encoded as `Option.none`), confidence,
provenance, notes. -/
structure FieldResult (α : Type) where
  value : Option α
  confidence : ℚ
  provenance : List Provenance
  notes : String := ""
deriving DecidableEq

/-- `clamp(x, lo, hi)` as written in the specification (the spec formula for
the derived candidate score; the source itself only applies `min`). -/
def specClamp (x lo hi : ℚ) : ℚ := max lo (min x hi)

/-! ### Scoring and deduplication (`resolve/scoring.py`) -/

/-- Stable insert for a descending-by-score insertion sort: the new candidate
goes after every already-placed candidate of greater or equal score, which
reproduces the stability of Python's `sorted(..., reverse=True)`. -/
def insertByScoreDesc {α : Type} (c : Candidate α) :
    List (Candidate α) → List (Candidate α)
  | [] => [c]
  | d :: ds =>
    if d.score < c.score then c :: d :: ds else d :: insertByScoreDesc c ds

/-- `score_candidates`: sort by score, highest first, stable. -/
def score_candidates {α : Type} (cs : List (Candidate α)) : List (Candidate α) :=
  cs.foldl (fun acc c => insertByScoreDesc c acc) []

/-- Lookup in the insertion-ordered map modelling the Python dict
`seen_values`. -/
def seenLookup {α : Type} (k : String) :
    List (String × Candidate α) → Option (Candidate α)
  | [] => none
  | (k₂, d) :: rest => if k₂ = k then some d else seenLookup k rest

/-- Replace the value stored at a key (Python dict value assignment keeps the
key's insertion position). -/
def seenReplace {α : Type} (k : String) (c : Candidate α) :
    List (String × Candidate α) → List (String × Candidate α)
  | [] => []
  | (k₂, d) :: rest =>
    if k₂ = k then (k₂, c) :: rest else (k₂, d) :: seenReplace k c rest

/-- The loop of `deduplicate_candidates`: group by normalized value key,
keep the higher-scoring member (strict comparison, so the earlier of two
equal-scoring duplicates survives). -/
def dedupAux {α : Type} (key : α → String) :
    List (Candidate α) → List (String × Candidate α) → List (String × Candidate α)
  | [], seen => seen
  | c :: cs, seen =>
    let k := key c.value
    match seenLookup k seen with
    | none => dedupAux key cs (seen ++ [(k, c)])
    | some d =>
      if d.score < c.score then dedupAux key cs (seenReplace k c seen)
      else dedupAux key cs seen

/-- `deduplicate_candidates`, parametrized by the normalization key function
(the type dispatch of `_normalize_value_for_comparison` is resolved per
field family in this typed embedding). -/
def deduplicate_candidates {α : Type} (key : α → String)
    (cs : List (Candidate α)) : List (Candidate α) :=
  (dedupAux key cs []).map (fun e => e.2)

/-- `_normalize_value_for_comparison` on strings:
`" ".join(value.lower().split())`. -/
def normalizeStringKey (s : String) : String :=
  ⟨pyJoin [' '] (pySplitWs (pyLower s.data))⟩

/-! ### Email validator (`resolve/validators.py`, `EmailValidator`) -/

def isEmailLocalChar (c : Char) : Bool :=
  c.isAlpha || c.isDigit || c = '.' || c = '_' || c = '%' || c = '+' || c = '-'

def isEmailDomainChar (c : Char) : Bool :=
  c.isAlpha || c.isDigit || c = '.' || c = '-'

/-- The domain side of `EMAIL_REGEX`: matches
`[a-zA-Z0-9.-]+ DOT [a-zA-Z]`-at-least-twice, anchored.  Because the final
alphabetic run cannot contain a dot, a match exists iff the last-dot
decomposition satisfies the constraints. -/
def emailDomainOk (dom : List Char) : Bool :=
  let r := dom.reverse
  let tld := r.takeWhile (fun c => c ≠ '.')
  match r.dropWhile (fun c => c ≠ '.') with
  | [] => false
  | _ :: pre =>
    decide (2 ≤ tld.length) && tld.all Char.isAlpha &&
      (!pre.isEmpty) && pre.all isEmailDomainChar

/-- Whole-string match of `EMAIL_REGEX`
(`[a-zA-Z0-9._%+-]+ AT [a-zA-Z0-9.-]+ DOT [a-zA-Z]`-at-least-twice): since
neither character class contains the at sign, the string must split into
exactly two parts around a single at sign. -/
def emailFormatValid (s : String) : Bool :=
  match pySplitChar '@' s.data with
  | [loc, dom] => (!loc.isEmpty) && loc.all isEmailLocalChar && emailDomainOk dom
  | _ => false

/-- `email.strip().lower()` as performed at the top of
`EmailValidator.validate`. -/
def pyStripLower (s : String) : String := ⟨pyLower (pyStrip s.data)⟩

/-- Outcome of the external DNS MX lookup (`dns.resolver.resolve`):
records returned (truthy or falsy), a no-record style exception, or any
other failure.  This is the oracle for the network collaborator. -/
inductive MxLookup where
  | records (truthy : Bool)
  | noRecord
  | failure
deriving DecidableEq

/-- `EmailValidator.validate(email, check_mx)` given an MX oracle keyed by
domain; returns `(is_valid, bonus, notes)`. -/
def EmailValidator.validate (mx : String → MxLookup) (email : String)
    (check_mx : Bool) : Bool × ℚ × String :=
  let e := pyStripLower email
  if emailFormatValid e then
    if check_mx then
      let dom : String := ⟨(pySplitChar '@' e.data).getD 1 []⟩
      match mx dom with
      | .records true => (true, 1/10, "MX valid")
      | .records false => (true, 0, "")
      | .noRecord => (true, 0, "MX not found")
      | .failure => (true, 0, "MX check failed")
    else (true, 0, "")
  else (false, 0, "invalid format")

/-! ### Phone validator (`resolve/validators.py`, `PhoneValidator`)

`PhoneValidator.validate` is a thin wrapper over the external `phonenumbers`
library (region-aware parse, validity check, E.164 formatting, number-type
tag), so its verdict is modelled as an oracle returning the same tuple
`(is_valid, e164, bonus, notes)` that the Python method returns. -/

structure PhoneVerdict where
  is_valid : Bool
  e164 : Option String
  bonus : ℚ
  notes : String
deriving DecidableEq

/-! ### Address validator (`resolve/validators.py`, `AddressValidator`) -/

/-- The address value shape consumed by `AddressValidator` (a Python dict
with optional `street`/`city`/`region`/`postal` string entries). -/
structure Address where
  street : Option String := none
  city : Option String := none
  region : Option String := none
  postal : Option String := none
deriving DecidableEq

/-- Python truthiness of `address.get(key)`: present and a non-empty string. -/
def truthyOpt : Option String → Bool
  | none => false
  | some s => !(s = "")

/-- `ZIP_PATTERN`: five digits optionally followed by a dash and four
digits, anchored on both sides. -/
def zipMatch (s : String) : Bool :=
  let cs := s.data
  (cs.length = 5 && cs.all Char.isDigit) ||
    (cs.length = 10 && (cs.take 5).all Char.isDigit &&
      cs.getD 5 ' ' = '-' && (cs.drop 6).all Char.isDigit)

/-- `AddressValidator.validate(address, geocode_token)` →
`(is_valid, bonus, notes)`. -/
def AddressValidator.validate (addr : Address) (geocode_token : Option String) :
    Bool × ℚ × String :=
  let has_city := truthyOpt addr.city
  let has_region := truthyOpt addr.region
  let has_postal := truthyOpt addr.postal
  if !(has_city || has_region || has_postal) then
    (false, 0, "insufficient components")
  else
    let postalNotes : List String :=
      match addr.postal with
      | some p => if p = "" then [] else if zipMatch p then ["valid zip"] else ["non-US postal"]
      | none => []
    let bonus₁ : ℚ := if truthyOpt addr.postal && zipMatch (addr.postal.getD "") then 1/20 else 0
    let notes₁ := postalNotes ++ (if truthyOpt geocode_token then ["geocoding not implemented"] else [])
    let component_count :=
      (cond has_city 1 0) + (cond has_region 1 0) + (cond has_postal 1 0) +
        (cond (truthyOpt addr.street) 1 0)
    if 3 ≤ component_count then
      (true, bonus₁ + 1/20, pyJoinStr "; " (notes₁ ++ [toString component_count ++ " components"]))
    else
      (true, bonus₁, pyJoinStr "; " notes₁)

/-! ### Color validator (`resolve/validators.py`, `ColorValidator`) -/

def isHexDigitChar (c : Char) : Bool :=
  c.isDigit || ('a' ≤ c && c ≤ 'f') || ('A' ≤ c && c ≤ 'F')

/-- The per-entry pattern: a hash sign followed by exactly six hex digits. -/
def isHexColor (s : String) : Bool :=
  match s.data with
  | '#' :: rest => rest.length = 6 && rest.all isHexDigitChar
  | _ => false

/-- `ColorValidator.validate(colors)` given the
`ColorExtractor.check_wcag_contrast` collaborator as an oracle
(floating-point luminance arithmetic): returns `(is_valid, bonus, notes)`.
The Python loop returns at the first non-hex entry; the result only depends
on whether every entry matches. -/
def ColorValidator.validate (contrastOk : String → String → Bool)
    (colors : List String) : Bool × ℚ × String :=
  if colors.all isHexColor then
    let white_pass := colors.any (fun c => contrastOk c "#FFFFFF")
    let black_pass := colors.any (fun c => contrastOk c "#000000")
    if white_pass || black_pass then
      (true, 1/10,
        if white_pass && black_pass then "AA vs white & black"
        else if white_pass then "AA vs white" else "AA vs black")
    else (true, 0, "low contrast")
  else (false, 0, "invalid HEX format")

/-! ### Field resolver (`resolve/resolver.py`) -/

/-- `FieldResolver._null_result`. -/
def FieldResolver.nullResult {α : Type} : FieldResult α :=
  ⟨none, 0, [], "not found"⟩

/-- `winner = candidates[0]` and the construction of the winning
`FieldResult`.  The `[]` branch is unreachable at every call site (the
sorted list is provably non-empty there); it is mapped to the null result
to keep the function total. -/
def winnerResult {α : Type} : List (Candidate α) → FieldResult α
  | [] => FieldResolver.nullResult
  | w :: _ => ⟨some w.value, w.score, w.provenance, w.notes⟩

/-- The per-candidate validation step of `resolve_email`: accumulate the
bonus and overwrite notes on success, zero out `source_weight` on failure. -/
def emailValidateStep (mx : String → MxLookup) (c : Candidate String) :
    Candidate String :=
  let v := EmailValidator.validate mx c.value true
  if v.1 then
    { c with validator_bonus := c.validator_bonus + v.2.1,
             notes := if v.2.2 = "" then c.notes else v.2.2 }
  else { c with source_weight := 0 }

/-- `FieldResolver.resolve_email`. -/
def FieldResolver.resolve_email (mx : String → MxLookup)
    (cs : List (Candidate String)) : FieldResult String :=
  match cs with
  | [] => FieldResolver.nullResult
  | _ :: _ =>
    let validated := cs.map (emailValidateStep mx)
    let kept := validated.filter fun c => decide (0 < c.source_weight)
    match kept with
    | [] => FieldResolver.nullResult
    | k :: ks =>
      winnerResult (score_candidates (deduplicate_candidates normalizeStringKey (k :: ks)))

/-- The per-candidate validation step of `resolve_phone`: on a valid parse
with a truthy E.164 string, the value is replaced by the E.164 form. -/
def phoneValidateStep (pv : String → PhoneVerdict) (c : Candidate String) :
    Candidate String :=
  let v := pv c.value
  match v.e164 with
  | some e =>
    if v.is_valid && !(e = "") then
      { c with value := e, validator_bonus := c.validator_bonus + v.bonus,
               notes := if v.notes = "" then c.notes else v.notes }
    else { c with source_weight := 0 }
  | none => { c with source_weight := 0 }

/-- `FieldResolver.resolve_phone`. -/
def FieldResolver.resolve_phone (pv : String → PhoneVerdict)
    (cs : List (Candidate String)) : FieldResult String :=
  match cs with
  | [] => FieldResolver.nullResult
  | _ :: _ =>
    let validated := cs.map (phoneValidateStep pv)
    let kept := validated.filter fun c => decide (0 < c.source_weight)
    match kept with
    | [] => FieldResolver.nullResult
    | k :: ks =>
      winnerResult (score_candidates (deduplicate_candidates normalizeStringKey (k :: ks)))

/-- The per-candidate validation step of `resolve_address` (in this typed
embedding every value is an address record, so the `isinstance` guard of the
source always holds). -/
def addressValidateStep (geocode_token : Option String) (c : Candidate Address) :
    Candidate Address :=
  let v := AddressValidator.validate c.value geocode_token
  if v.1 then
    { c with validator_bonus := c.validator_bonus + v.2.1,
             notes := if v.2.2 = "" then c.notes else v.2.2 }
  else { c with source_weight := 0 }

/-- `FieldResolver.resolve_address` (no deduplication, per the source). -/
def FieldResolver.resolve_address (geocode_token : Option String)
    (cs : List (Candidate Address)) : FieldResult Address :=
  match cs with
  | [] => FieldResolver.nullResult
  | _ :: _ =>
    let validated := cs.map (addressValidateStep geocode_token)
    let kept := validated.filter fun c => decide (0 < c.source_weight)
    match kept with
    | [] => FieldResolver.nullResult
    | k :: ks => winnerResult (score_candidates (k :: ks))

/-- The per-candidate validation step of `resolve_colors`. -/
def colorsValidateStep (contrastOk : String → String → Bool)
    (c : Candidate (List String)) : Candidate (List String) :=
  let v := ColorValidator.validate contrastOk c.value
  if v.1 then
    { c with validator_bonus := c.validator_bonus + v.2.1,
             notes := if v.2.2 = "" then c.notes else v.2.2 }
  else { c with source_weight := 0 }

/-- `FieldResolver.resolve_colors` (no deduplication, per the source). -/
def FieldResolver.resolve_colors (contrastOk : String → String → Bool)
    (cs : List (Candidate (List String))) : FieldResult (List String) :=
  match cs with
  | [] => FieldResolver.nullResult
  | _ :: _ =>
    let validated := cs.map (colorsValidateStep contrastOk)
    let kept := validated.filter fun c => decide (0 < c.source_weight)
    match kept with
    | [] => FieldResolver.nullResult
    | k :: ks => winnerResult (score_candidates (k :: ks))

/-- `FieldResolver.resolve_services` (score only). -/
def FieldResolver.resolve_services (cs : List (Candidate (List String))) :
    FieldResult (List String) :=
  match cs with
  | [] => FieldResolver.nullResult
  | _ :: _ => winnerResult (score_candidates cs)

/-- One legal-suffix pass of `_normalize_business_name`: the regex
whitespace-run + suffix, anchored at the end, case-insensitive; on a match
both the suffix and the preceding whitespace run are removed. -/
def stripLegalSuffix (suffix : List Char) (name : List Char) : List Char :=
  let rn := name.reverse
  if ciStartsWith suffix.reverse rn then
    let rest := rn.drop suffix.length
    if (rest.takeWhile Char.isWhitespace).isEmpty then name
    else (rest.dropWhile Char.isWhitespace).reverse
  else name

def legalSuffixes : List String :=
  ["LLC", "L.L.C.", "Inc.", "Incorporated", "Corp.", "Corporation",
   "Ltd.", "Limited", "Co.", "Company"]

/-- `FieldResolver._normalize_business_name`: apply the suffix patterns in
order, then strip. -/
def normalizeBusinessName (name : String) : String :=
  ⟨pyStrip (legalSuffixes.foldl (fun acc suf => stripLegalSuffix suf.data acc) name.data)⟩

/-- `FieldResolver.resolve_brand_name`. -/
def FieldResolver.resolve_brand_name (cs : List (Candidate String)) :
    FieldResult String :=
  match cs with
  | [] => FieldResolver.nullResult
  | _ :: _ =>
    let normalized := cs.map (fun c => { c with value := normalizeBusinessName c.value })
    winnerResult (score_candidates (deduplicate_candidates normalizeStringKey normalized))

/-- `FieldResolver.resolve_logo`. -/
def FieldResolver.resolve_logo (cs : List (Candidate String)) : FieldResult String :=
  match cs with
  | [] => FieldResolver.nullResult
  | _ :: _ =>
    winnerResult (score_candidates (deduplicate_candidates normalizeStringKey cs))

/-- `FieldResolver.resolve_text` (background, slogan). -/
def FieldResolver.resolve_text (cs : List (Candidate String)) : FieldResult String :=
  match cs with
  | [] => FieldResolver.nullResult
  | _ :: _ =>
    winnerResult (score_candidates (deduplicate_candidates normalizeStringKey cs))

/-- `FieldResolver.resolve_socials`: per-platform dedupe → score → winner;
platform map and constant confidence. -/
def FieldResolver.resolve_socials
    (plats : List (String × List (Candidate String))) :
    FieldResult (List (String × Option String)) :=
  let entries := plats.map (fun pc =>
    match pc.2 with
    | [] => (pc.1, (none : Option String), ([] : List Provenance))
    | c :: cs =>
      match score_candidates (deduplicate_candidates normalizeStringKey (c :: cs)) with
      | [] => (pc.1, (none : Option String), ([] : List Provenance))
      | w :: _ => (pc.1, some w.value, w.provenance))
  let socials := entries.map (fun e => (e.1, e.2.1))
  let all_provenance := entries.foldl (fun acc e => acc ++ e.2.2) []
  let found_count := (socials.filter (fun e => e.2.isSome)).length
  ⟨if 0 < found_count then some socials else none,
   if 0 < found_count then 85/100 else 0,
   all_provenance.take 5,
   "found " ++ toString found_count ++ " platforms"⟩

/-- `FieldResolver._normalize_image_url` with the `urlparse`-based
query/fragment stripping as an oracle; the falsy-URL guard is explicit in
the source. -/
def normalizeImageUrl (stripQuery : String → String) (url : String) : String :=
  if url = "" then "" else stripQuery url

/-- The image deduplication loop of `resolve_images` (`seen_urls` set,
first occurrence of each normalized URL wins). -/
def imgDedupAux (stripQuery : String → String) :
    List (Candidate String) → List String → List (Candidate String)
  | [], _ => []
  | c :: cs, seen =>
    let n := normalizeImageUrl stripQuery c.value
    if seen.contains n then imgDedupAux stripQuery cs seen
    else c :: imgDedupAux stripQuery cs (n :: seen)

/-- `FieldResolver.resolve_images`: dedupe by normalized URL, sort by score
(twice in the source: `score_candidates` then an explicit stable
`sort(reverse=True)`), keep the top 50, and return the list of their values
with the average score as confidence. -/
def FieldResolver.resolve_images (stripQuery : String → String)
    (cs : List (Candidate String)) : FieldResult (List String) :=
  match cs with
  | [] => FieldResolver.nullResult
  | _ :: _ =>
    let uniq := imgDedupAux stripQuery cs []
    let scored := score_candidates uniq
    let sorted := score_candidates scored
    let top := sorted.take 50
    let image_urls := (top.map (fun c => c.value)).filter (fun v => !(v = ""))
    match image_urls with
    | [] => FieldResolver.nullResult
    | u :: us =>
      ⟨some (u :: us),
       (top.foldl (fun a c => a + c.score) 0) / (top.length : ℚ),
       (top.foldl (fun acc c => acc ++ c.provenance) []).take 10,
       "extracted " ++ toString (u :: us).length ++ " images from " ++
         toString scored.length ++ " candidates"⟩

/-! ### Orchestrator cross-page service merge (`orchestrator.py`) -/

/-- The score used by `_merge_service_candidates` to choose the best
contributor: `(source_weight or 0.5) * (method_weight or 0.5)` — a falsy
(zero) weight is replaced by one half, and the validator bonus is ignored. -/
def mergeScore (c : Candidate (List String)) : ℚ :=
  (if c.source_weight = 0 then 1/2 else c.source_weight) *
    (if c.method_weight = 0 then 1/2 else c.method_weight)

/-- `all_services.update(candidate.value)`: set union preserving first
insertion order (the final `sorted` makes the order immaterial). -/
def addServices (acc : List String) (vs : List String) : List String :=
  vs.foldl (fun a v => if a.contains v then a else a ++ [v]) acc

def collectServices (cs : List (Candidate (List String))) : List String :=
  cs.foldl (fun acc c => addServices acc c.value) []

/-- The best-contributor fold of `_merge_service_candidates`
(`best_score` starts at 0, strict improvement required). -/
def bestContributor (cs : List (Candidate (List String))) :
    ℚ × Option (Candidate (List String)) :=
  cs.foldl (fun st c => if st.1 < mergeScore c then (mergeScore c, some c) else st)
    ((0 : ℚ), none)

/-- Stable ascending insertion sort on strings (Python `sorted`). -/
def insertStrAsc (x : String) : List String → List String
  | [] => [x]
  | y :: ys => if decide (y ≤ x) then y :: insertStrAsc x ys else x :: y :: ys

def sortStringsAsc (xs : List String) : List String :=
  xs.foldl (fun acc x => insertStrAsc x acc) []

/-- `TruthExtractor._merge_service_candidates`. -/
def TruthExtractor.merge_service_candidates
    (cs : List (Candidate (List String))) : List (Candidate (List String)) :=
  match cs with
  | [] => cs
  | _ :: _ =>
    let all_services := collectServices cs
    match (bestContributor cs).2 with
    | some b =>
      if 1 < cs.length && !all_services.isEmpty then
        [⟨sortStringsAsc all_services, b.source_weight, b.method_weight, 0,
          b.provenance, "merged from " ++ toString cs.length ++ " pages"⟩]
      else cs
    | none => cs

/-! ### Crawler (`crawl/crawler.py`, `crawl/fetcher.py`)

The network, the HTML parser, the URL library (`urljoin`/`urlparse`/
`tldextract`) and the Playwright renderer are external collaborators;
they are bundled into a `WebOracle` of pure functions.  The BFS loop is
defined with explicit fuel; a theorem below shows that fuel
`max_pages + 1` is always sufficient (the loop terminates). -/

/-- `CrawlConfig` — the fields the crawl loop reads. -/
structure CrawlConfig where
  max_pages : Nat
  max_depth : Nat
  priority_patterns : List String
  use_playwright : Bool

/-- `FetchResult` (`crawl/fetcher.py`). -/
structure FetchResult where
  url : String
  success : Bool
  status_code : Option Int := none
  content : Option String := none
  content_type : Option String := none
  error : Option String := none
  elapsed_ms : Option ℚ := none
  from_cache : Bool := false

/-- The `HTMLParser` queries the crawl loop uses (`get_title`,
`is_javascript_spa`, `get_navigation_links`, `get_all_links`). -/
structure ParsedDoc where
  title : Option String := none
  isSpa : Bool := false
  navLinks : List String := []
  allLinks : List String := []
deriving DecidableEq

/-- The external collaborators of one crawl: fetching, parsing a content
string for a URL, the optional Playwright render, `normalize_url(url, base)`,
`is_same_domain`, the `urlparse(url).path` projection, and the
scheme-netloc projection used for `base_domain`. -/
structure WebOracle where
  fetch : String → FetchResult
  parse : String → String → ParsedDoc
  render : String → Option String
  normalize : String → String → String
  sameDomain : String → String → Bool
  urlPath : String → String
  schemeNetloc : String → String

/-- `CrawledPage`. -/
structure CrawledPage where
  url : String
  title : Option String := none
  success : Bool := false
  status_code : Option Int := none
  content : Option String := none
  doc : Option ParsedDoc := none
  depth : Nat := 0
  elapsed_ms : Option ℚ := none
  from_cache : Bool := false
deriving DecidableEq

/-- `CrawlResult`. -/
structure CrawlResult where
  start_url : String
  domain : String
  pages : List CrawledPage := []
  failed_urls : List String := []

/-- The mutable state of the BFS loop.  `fetched` is a ghost field recording
the URL of every `fetcher.fetch` call in order; it has no influence on the
rest of the state. -/
structure CrawlSt where
  queue : List (String × Nat)
  visited : List String
  queued : List String
  pages : List CrawledPage
  failed_urls : List String
  fetched : List String

/-- Anchored prefix match of a character pattern. -/
def listStartsWith : List Char → List Char → Bool
  | [], _ => true
  | _ :: _, [] => false
  | p :: ps, c :: cs => p = c && listStartsWith ps cs

/-- Python substring operator `pat in s` on character lists. -/
def containsSub (pat : List Char) : List Char → Bool
  | [] => listStartsWith pat []
  | c :: cs => listStartsWith pat (c :: cs) || containsSub pat cs

/-- Python `set.add` on the list model (length = cardinality). -/
def addIfAbsent (u : String) (l : List String) : List String :=
  if l.contains u then l else u :: l

/-- `fetch_result.success and fetch_result.content` (a missing or empty
content string is falsy). -/
def fetchOk (fr : FetchResult) : Bool :=
  fr.success && (match fr.content with | some s => !(s = "") | none => false)

/-- `WebCrawler._is_priority_url`. -/
def isPriorityUrl (cfg : CrawlConfig) (url : String) : Bool :=
  cfg.priority_patterns.any
    (fun p => containsSub p.data (pyLower url.data))

def skipExtensions : List String :=
  [".pdf", ".jpg", ".jpeg", ".png", ".gif", ".svg", ".css", ".js",
   ".xml", ".zip", ".mp4", ".mp3", ".doc", ".docx", ".xls", ".xlsx"]

def skipPaths : List String :=
  ["/wp-admin", "/admin", "/login", "/search", "/cart", "/checkout"]

/-- `WebCrawler._should_crawl_url`. -/
def shouldCrawlUrl (W : WebOracle) (url base : String)
    (visited queued : List String) : Bool :=
  if visited.contains url || queued.contains url then false
  else if !(W.sameDomain url base) then false
  else
    let path := pyLower (W.urlPath url).data
    if skipExtensions.any (fun e => e.data.isSuffixOf path) then false
    else if skipPaths.any (fun p => containsSub p.data path) then false
    else true

/-- The link loop at the bottom of the success branch: normalize each
candidate link, enqueue the eligible ones, and stop once
`len(queue) + len(visited)` reaches `max_pages`. -/
def enqueueLinks (W : WebOracle) (cfg : CrawlConfig) (base pageUrl : String)
    (depth : Nat) : List String → CrawlSt → CrawlSt
  | [], st => st
  | l :: ls, st =>
    let n := W.normalize l pageUrl
    if shouldCrawlUrl W n base st.visited st.queued then
      let st' : CrawlSt :=
        { st with queue := st.queue ++ [(n, depth + 1)], queued := n :: st.queued }
      if cfg.max_pages ≤ st'.queue.length + st'.visited.length then st'
      else enqueueLinks W cfg base pageUrl depth ls st'
    else enqueueLinks W cfg base pageUrl depth ls st

/-- The body of one iteration after popping `(url, depth)` with the depth
guard already passed: add to `visited`, fetch, and either record a
successful page (with the first-page Playwright fallback and the ordered
link extraction) or record a failed page. -/
def visitStep (W : WebOracle) (cfg : CrawlConfig) (base : String)
    (url : String) (depth : Nat) (st : CrawlSt) : CrawlSt :=
  let st := { st with visited := addIfAbsent url st.visited,
                      fetched := st.fetched ++ [url] }
  let fr := W.fetch url
  if fetchOk fr then
    let content := fr.content.getD ""
    let doc₀ := W.parse content url
    let rendered : ParsedDoc × String :=
      if st.pages.length = 0 && doc₀.isSpa && cfg.use_playwright then
        match W.render url with
        | some h => if h = "" then (doc₀, content) else (W.parse h url, h)
        | none => (doc₀, content)
      else (doc₀, content)
    let doc := rendered.1
    let page : CrawledPage :=
      { url := url, title := doc.title, success := true,
        status_code := fr.status_code, content := some rendered.2,
        doc := some doc, depth := depth, elapsed_ms := fr.elapsed_ms,
        from_cache := fr.from_cache }
    let st := { st with pages := st.pages ++ [page] }
    if depth < cfg.max_depth then
      let priority_links := doc.allLinks.filter (isPriorityUrl cfg)
      let nav_only := doc.navLinks.filter (fun l => !(priority_links.contains l))
      let other_links := doc.allLinks.filter
        (fun l => !(priority_links.contains l) && !(doc.navLinks.contains l))
      enqueueLinks W cfg base url depth (priority_links ++ nav_only ++ other_links) st
    else st
  else
    { st with
      pages := st.pages ++
        [{ url := url, success := false, status_code := fr.status_code,
           depth := depth }],
      failed_urls := st.failed_urls ++ [url] }

/-- The `while queue and len(result.pages) < max_pages` loop, with fuel.
Exhausted fuel returns the state reached so far; the termination theorem
shows fuel `max_pages + 1` never runs out. -/
def crawlLoop (W : WebOracle) (cfg : CrawlConfig) (base : String) :
    Nat → CrawlSt → CrawlSt
  | 0, st => st
  | fuel + 1, st =>
    match st.queue with
    | [] => st
    | (url, depth) :: rest =>
      if cfg.max_pages ≤ st.pages.length then st
      else if cfg.max_depth < depth then
        crawlLoop W cfg base fuel { st with queue := rest }
      else
        crawlLoop W cfg base fuel (visitStep W cfg base url depth { st with queue := rest })

/-- The initial state of `WebCrawler.crawl`: the normalized start URL is
queued at depth 0 and pre-inserted into `queued`. -/
def crawlInit (W : WebOracle) (start_url : String) : CrawlSt :=
  let s := W.normalize start_url start_url
  ⟨[(s, 0)], [], [s], [], [], []⟩

/-- The final loop state of `WebCrawler.crawl`. -/
def crawlFinal (W : WebOracle) (cfg : CrawlConfig) (start_url : String) : CrawlSt :=
  let s := W.normalize start_url start_url
  crawlLoop W cfg (W.schemeNetloc s) (cfg.max_pages + 1) (crawlInit W start_url)

/-- `WebCrawler.crawl`. -/
def WebCrawler.crawl (W : WebOracle) (cfg : CrawlConfig) (start_url : String) :
    CrawlResult :=
  let s := W.normalize start_url start_url
  let fin := crawlFinal W cfg start_url
  ⟨s, W.schemeNetloc s, fin.pages, fin.failed_urls⟩

/-- The loop invariant of `WebCrawler.crawl`: queue entries respect the
depth budget and are pairwise-distinct queued-but-unvisited URLs; pages are
within the page budget and the depth budget, one per visited URL, with no
URL repeated; `failed_urls` is exactly the URLs of the unsuccessful pages;
and the ghost `fetched` list is exactly the page URLs in order. -/
structure CrawlInv (cfg : CrawlConfig) (st : CrawlSt) : Prop where
  qdepth : ∀ e ∈ st.queue, e.2 ≤ cfg.max_depth
  qnodup : (st.queue.map Prod.fst).Nodup
  qsub : ∀ v ∈ st.queue.map Prod.fst, v ∈ st.queued
  qvis : ∀ v ∈ st.queue.map Prod.fst, v ∉ st.visited
  pvis : ∀ p ∈ st.pages, p.url ∈ st.visited
  pnodup : (st.pages.map CrawledPage.url).Nodup
  plen : st.pages.length ≤ cfg.max_pages
  pdepth : ∀ p ∈ st.pages, p.depth ≤ cfg.max_depth
  failedSpec : st.failed_urls = (st.pages.filter (fun p => !p.success)).map CrawledPage.url
  ghost : st.pages.map CrawledPage.url = st.fetched

/-! ### Concrete sample data used by witnesses and counterexamples -/

def c1Sample : Candidate Unit := ⟨(), 1/2, 1/2, 9/10, [], ""⟩

/-- A trivial MX oracle: the lookup finds no record. -/
def mxNone : String → MxLookup := fun _ => .noRecord

def c2Email : Candidate String := ⟨"test@example.com", 6/10, 1, 0, [⟨"u", "mailto"⟩], ""⟩

def c4BadEmail : Candidate String := ⟨"invalid.email", 6/10, 1, 0, [], ""⟩

def c3Low : Candidate String := ⟨"a", 1/2, 1, 0, [], ""⟩
def c3First : Candidate String := ⟨"A", 9/10, 1, 0, [], "x"⟩
def c3Second : Candidate String := ⟨"a", 9/10, 1, 0, [], "y"⟩

def c7High : Candidate String := ⟨"http://a/x.png", 9/10, 1, 0, [], ""⟩
def c7Low : Candidate String := ⟨"http://a/y.png", 1/2, 1, 0, [], ""⟩

def c8Bonus : Candidate (List String) := ⟨["b", "a"], 1/2, 1/2, 1/2, [⟨"u1", "p1"⟩], ""⟩
def c8Plain : Candidate (List String) := ⟨["c", "a"], 3/5, 3/5, 0, [⟨"u2", "p2"⟩], ""⟩

/-- An oracle world whose fetches all fail (used to exercise the
failed-page branch of the crawler). -/
def oracleAllFail : WebOracle :=
  ⟨fun u => ⟨u, false, some 503, none, none, some "boom", none, false⟩,
   fun _ _ => ⟨none, false, [], []⟩,
   fun _ => none,
   fun u _ => u,
   fun _ _ => true,
   fun u => u,
   fun _ => "http://e.com"⟩

def cfgSmall : CrawlConfig := ⟨2, 1, [], false⟩

/-! ## Lemmas and claim theorems -/

theorem mem_insertByScoreDesc {α : Type} {c x : Candidate α} {l : List (Candidate α)} :
    x ∈ insertByScoreDesc c l ↔ x = c ∨ x ∈ l := by
  induction l with
  | nil => simp [insertByScoreDesc]
  | cons d ds ih =>
    by_cases h : d.score < c.score <;> simp [insertByScoreDesc, h, ih] <;> tauto

theorem length_insertByScoreDesc {α : Type} (c : Candidate α) (l : List (Candidate α)) :
    (insertByScoreDesc c l).length = l.length + 1 := by
  induction l with
  | nil => rfl
  | cons d ds ih =>
    by_cases h : d.score < c.score <;> simp [insertByScoreDesc, h, ih]

theorem mem_score_candidates_aux {α : Type} (cs : List (Candidate α)) :
    ∀ (acc : List (Candidate α)) (x : Candidate α),
      x ∈ cs.foldl (fun a c => insertByScoreDesc c a) acc ↔ x ∈ acc ∨ x ∈ cs := by
  induction cs with
  | nil => simp
  | cons c cs ih =>
    intro acc x
    simp only [List.foldl_cons, ih, mem_insertByScoreDesc, List.mem_cons]
    tauto

theorem mem_score_candidates {α : Type} {cs : List (Candidate α)} {x : Candidate α} :
    x ∈ score_candidates cs ↔ x ∈ cs := by
  simp [score_candidates, mem_score_candidates_aux]

theorem length_score_candidates_aux {α : Type} (cs : List (Candidate α)) :
    ∀ acc : List (Candidate α),
      (cs.foldl (fun a c => insertByScoreDesc c a) acc).length = acc.length + cs.length := by
  induction cs with
  | nil => simp
  | cons c cs ih =>
    intro acc
    simp [ih, length_insertByScoreDesc]
    omega

theorem length_score_candidates {α : Type} (cs : List (Candidate α)) :
    (score_candidates cs).length = cs.length := by
  simp [score_candidates, length_score_candidates_aux]

/-- C1: for every candidate whose `source_weight` and `method_weight` lie in
the unit interval and whose `validator_bonus` is nonnegative, the derived
score equals the specification's `clamp(source_weight * method_weight +
validator_bonus, 0, 1)` and therefore lies in the unit interval. -/
theorem claim_C1_candidate_score_clamped {α : Type} (c : Candidate α)
    (hs₀ : 0 ≤ c.source_weight) (hs₁ : c.source_weight ≤ 1)
    (hm₀ : 0 ≤ c.method_weight) (hm₁ : c.method_weight ≤ 1)
    (hb : 0 ≤ c.validator_bonus) :
    c.score = specClamp (c.source_weight * c.method_weight + c.validator_bonus) 0 1 ∧
      0 ≤ c.score ∧ c.score ≤ 1 := by
  have hbase : 0 ≤ c.source_weight * c.method_weight + c.validator_bonus :=
    add_nonneg (mul_nonneg hs₀ hm₀) hb
  have hmin : (0 : ℚ) ≤ min (c.source_weight * c.method_weight + c.validator_bonus) 1 :=
    le_min hbase (by norm_num)
  refine ⟨?_, ?_, ?_⟩
  · simp [Candidate.score, specClamp, min_comm, max_eq_right hmin]
  · simpa [Candidate.score, min_comm] using hmin
  · simp [Candidate.score, min_le_left]

/-- Witness for C1 at a concrete candidate whose raw base-plus-bonus
exceeds 1, so the upper clamp is exercised. -/
theorem claim_C1_witness :
    c1Sample.score =
      specClamp (c1Sample.source_weight * c1Sample.method_weight + c1Sample.validator_bonus) 0 1 ∧
      0 ≤ c1Sample.score ∧ c1Sample.score ≤ 1 :=
  claim_C1_candidate_score_clamped c1Sample
    (by with_unfolding_all decide) (by with_unfolding_all decide)
    (by with_unfolding_all decide) (by with_unfolding_all decide)
    (by with_unfolding_all decide)

/-- C9: `EmailValidator.validate` accepts `test@example.com` and rejects
`invalid.email`, and for every input the validity verdict equals the format
check alone — the MX oracle (present, absent, or failing) never changes it. -/
theorem claim_C9_email_verdict_format_only :
    (∀ (mx : String → MxLookup) (cm : Bool) (email : String),
        (EmailValidator.validate mx email cm).1 = emailFormatValid (pyStripLower email)) ∧
      (∀ (mx : String → MxLookup) (cm : Bool),
        (EmailValidator.validate mx "test@example.com" cm).1 = true) ∧
      (∀ (mx : String → MxLookup) (cm : Bool),
        (EmailValidator.validate mx "invalid.email" cm).1 = false) := by
  have h : ∀ (mx : String → MxLookup) (cm : Bool) (email : String),
      (EmailValidator.validate mx email cm).1 = emailFormatValid (pyStripLower email) := by
    intro mx cm email
    unfold EmailValidator.validate
    cases hv : emailFormatValid (pyStripLower email) with
    | false => simp [hv]
    | true =>
      cases cm with
      | false => simp [hv]
      | true =>
        simp only [hv, if_true]
        rcases mx _ with tr | _ | _
        · cases tr <;> simp
        · simp
        · simp
  refine ⟨h, fun mx cm => ?_, fun mx cm => ?_⟩
  · rw [h]; with_unfolding_all decide
  · rw [h]; with_unfolding_all decide

/-- C10: `ColorValidator.validate` on the empty color list returns
`is_valid = true` with bonus `0` (and notes `low contrast`) for every
contrast collaborator, and consequently the colors validation step never
zeroes the `source_weight` of a candidate whose value is the empty list. -/
theorem claim_C10_color_validate_empty :
    (∀ contrastOk : String → String → Bool,
        ColorValidator.validate contrastOk [] = (true, 0, "low contrast")) ∧
      ∀ (contrastOk : String → String → Bool) (c : Candidate (List String)),
        (colorsValidateStep contrastOk { c with value := ([] : List String) }).source_weight =
          c.source_weight := by
  constructor
  · intro contrastOk; rfl
  · intro contrastOk c; rfl

/-! ### Deduplication lemmas -/

theorem length_seenReplace {α : Type} (k : String) (c : Candidate α)
    (seen : List (String × Candidate α)) :
    (seenReplace k c seen).length = seen.length := by
  induction seen with
  | nil => rfl
  | cons e rest ih =>
    obtain ⟨k₂, d⟩ := e
    by_cases h : k₂ = k <;> simp [seenReplace, h, ih]

theorem mem_seenReplace {α : Type} {k : String} {c : Candidate α}
    {seen : List (String × Candidate α)} {e : String × Candidate α}
    (h : e ∈ seenReplace k c seen) : e ∈ seen ∨ e = (k, c) := by
  induction seen with
  | nil => simp [seenReplace] at h
  | cons e₀ rest ih =>
    obtain ⟨k₂, d⟩ := e₀
    by_cases hk : k₂ = k
    · subst hk
      simp [seenReplace] at h
      rcases h with h | h
      · right; simp [h]
      · left; simp [h]
    · simp [seenReplace, hk] at h
      rcases h with h | h
      · left; simp [h]
      · rcases ih h with h₂ | h₂
        · left; simp [h₂]
        · right; exact h₂

theorem keys_seenReplace {α : Type} (k : String) (c : Candidate α)
    (seen : List (String × Candidate α)) :
    (seenReplace k c seen).map Prod.fst = seen.map Prod.fst := by
  induction seen with
  | nil => rfl
  | cons e rest ih =>
    obtain ⟨k₂, d⟩ := e
    by_cases h : k₂ = k <;> simp [seenReplace, h, ih]

theorem seenLookup_none_iff {α : Type} {k : String}
    {seen : List (String × Candidate α)} :
    seenLookup k seen = none ↔ k ∉ seen.map Prod.fst := by
  induction seen with
  | nil => simp [seenLookup]
  | cons e rest ih =>
    obtain ⟨k₂, d⟩ := e
    by_cases h : k₂ = k
    · subst h; simp [seenLookup]
    · simp [seenLookup, h, ih, Ne.symm h]

theorem seenLookup_mem {α : Type} {k : String} {d : Candidate α}
    {seen : List (String × Candidate α)}
    (h : seenLookup k seen = some d) : (k, d) ∈ seen := by
  induction seen with
  | nil => simp [seenLookup] at h
  | cons e rest ih =>
    obtain ⟨k₂, d₂⟩ := e
    by_cases hk : k₂ = k
    · subst hk
      simp [seenLookup] at h
      simp [h]
    · simp [seenLookup, hk] at h
      simp [ih h]

theorem mem_seenReplace_of_ne {α : Type} {k k₂ : String} {c d : Candidate α}
    {seen : List (String × Candidate α)}
    (h : (k₂, d) ∈ seen) (hne : k₂ ≠ k) : (k₂, d) ∈ seenReplace k c seen := by
  induction seen with
  | nil => simp at h
  | cons e rest ih =>
    obtain ⟨k₀, d₀⟩ := e
    rcases List.mem_cons.1 h with h₀ | h₀
    · have hk₀ : k₀ = k₂ ∧ d₀ = d := by
        constructor <;> [exact (Prod.mk.injEq .. ▸ h₀.symm).1; exact (Prod.mk.injEq .. ▸ h₀.symm).2]
      rcases hk₀ with ⟨rfl, rfl⟩
      simp [seenReplace, hne]
    · by_cases hk : k₀ = k
      · simp [seenReplace, hk, List.mem_cons, h₀]
      · simp [seenReplace, hk, List.mem_cons]
        right
        exact ih h₀

theorem mem_seenReplace_self {α : Type} {k : String} {c : Candidate α}
    {seen : List (String × Candidate α)}
    (h : k ∈ seen.map Prod.fst) : (k, c) ∈ seenReplace k c seen := by
  induction seen with
  | nil => simp at h
  | cons e rest ih =>
    obtain ⟨k₀, d₀⟩ := e
    by_cases hk : k₀ = k
    · subst hk
      simp [seenReplace]
    · rw [List.map_cons] at h
      have h₂ : k ∈ rest.map Prod.fst := by
        rcases List.mem_cons.1 h with h₀ | h₀
        · exact absurd h₀.symm hk
        · exact h₀
      simp only [seenReplace, hk, if_false, List.mem_cons]
      right
      exact ih h₂

theorem entry_unique {α : Type} {seen : List (String × Candidate α)}
    (hnd : (seen.map Prod.fst).Nodup) {k : String} {d d₂ : Candidate α}
    (h₁ : (k, d) ∈ seen) (h₂ : (k, d₂) ∈ seen) : d = d₂ := by
  induction seen with
  | nil => simp at h₁
  | cons e rest ih =>
    obtain ⟨k₀, d₀⟩ := e
    simp only [List.map_cons, List.nodup_cons] at hnd
    rcases List.mem_cons.1 h₁ with ha | ha <;> rcases List.mem_cons.1 h₂ with hb | hb
    · rw [Prod.mk.injEq] at ha hb
      rw [ha.2, hb.2]
    · rw [Prod.mk.injEq] at ha
      exact absurd (by rw [← ha.1]; exact List.mem_map_of_mem Prod.fst hb) hnd.1
    · rw [Prod.mk.injEq] at hb
      exact absurd (by rw [← hb.1]; exact List.mem_map_of_mem Prod.fst ha) hnd.1
    · exact ih hnd.2 ha hb

theorem dedupAux_cons_none {α : Type} (key : α → String) {c : Candidate α}
    {seen : List (String × Candidate α)} (cs : List (Candidate α))
    (h : seenLookup (key c.value) seen = none) :
    dedupAux key (c :: cs) seen = dedupAux key cs (seen ++ [(key c.value, c)]) := by
  simp only [dedupAux, h]

theorem dedupAux_cons_found {α : Type} (key : α → String) {c d : Candidate α}
    {seen : List (String × Candidate α)} (cs : List (Candidate α))
    (h : seenLookup (key c.value) seen = some d) :
    dedupAux key (c :: cs) seen =
      if d.score < c.score then dedupAux key cs (seenReplace (key c.value) c seen)
      else dedupAux key cs seen := by
  simp only [dedupAux, h]

theorem dedupAux_length {α : Type} (key : α → String) :
    ∀ (cs : List (Candidate α)) (seen : List (String × Candidate α)),
      (dedupAux key cs seen).length ≤ seen.length + cs.length := by
  intro cs
  induction cs with
  | nil => intro seen; simp [dedupAux]
  | cons c cs ih =>
    intro seen
    cases hl : seenLookup (key c.value) seen with
    | none =>
      rw [dedupAux_cons_none key cs hl]
      have := ih (seen ++ [(key c.value, c)])
      simp at this
      simp
      omega
    | some d =>
      rw [dedupAux_cons_found key cs hl]
      by_cases hs : d.score < c.score
      · rw [if_pos hs]
        have := ih (seenReplace (key c.value) c seen)
        rw [length_seenReplace] at this
        simp only [List.length_cons]
        omega
      · rw [if_neg hs]
        have := ih seen
        simp only [List.length_cons]
        omega

theorem dedupAux_sound {α : Type} (key : α → String) :
    ∀ (cs : List (Candidate α)) (seen : List (String × Candidate α))
      (e : String × Candidate α), e ∈ dedupAux key cs seen →
      e ∈ seen ∨ (e.2 ∈ cs ∧ e.1 = key e.2.value) := by
  intro cs
  induction cs with
  | nil => intro seen e h; left; simpa [dedupAux] using h
  | cons c cs ih =>
    intro seen e h
    cases hl : seenLookup (key c.value) seen with
    | none =>
      rw [dedupAux_cons_none key cs hl] at h
      rcases ih _ e h with h₂ | h₂
      · rcases List.mem_append.1 h₂ with h₃ | h₃
        · left; exact h₃
        · right
          have he : e = (key c.value, c) := by simpa using h₃
          subst he
          exact ⟨List.mem_cons_self .., rfl⟩
      · right; exact ⟨List.mem_cons_of_mem _ h₂.1, h₂.2⟩
    | some d =>
      rw [dedupAux_cons_found key cs hl] at h
      by_cases hs : d.score < c.score
      · rw [if_pos hs] at h
        rcases ih _ e h with h₂ | h₂
        · rcases mem_seenReplace h₂ with h₃ | h₃
          · left; exact h₃
          · right; subst h₃; exact ⟨List.mem_cons_self .., rfl⟩
        · right; exact ⟨List.mem_cons_of_mem _ h₂.1, h₂.2⟩
      · rw [if_neg hs] at h
        rcases ih _ e h with h₂ | h₂
        · left; exact h₂
        · right; exact ⟨List.mem_cons_of_mem _ h₂.1, h₂.2⟩

theorem dedupAux_keys_nodup {α : Type} (key : α → String) :
    ∀ (cs : List (Candidate α)) (seen : List (String × Candidate α)),
      (seen.map Prod.fst).Nodup → ((dedupAux key cs seen).map Prod.fst).Nodup := by
  intro cs
  induction cs with
  | nil => intro seen h; simpa [dedupAux] using h
  | cons c cs ih =>
    intro seen hnd
    cases hl : seenLookup (key c.value) seen with
    | none =>
      rw [dedupAux_cons_none key cs hl]
      apply ih
      have hk : key c.value ∉ seen.map Prod.fst := seenLookup_none_iff.1 hl
      simp [List.nodup_append, hnd, hk]
    | some d =>
      rw [dedupAux_cons_found key cs hl]
      by_cases hs : d.score < c.score
      · rw [if_pos hs]
        apply ih
        rw [keys_seenReplace]
        exact hnd
      · rw [if_neg hs]
        exact ih seen hnd

theorem dedupAux_persist {α : Type} (key : α → String) :
    ∀ (cs : List (Candidate α)) (seen : List (String × Candidate α)),
      (seen.map Prod.fst).Nodup →
      ∀ (k : String) (d : Candidate α), (k, d) ∈ seen →
        ∃ e ∈ dedupAux key cs seen, e.1 = k ∧ d.score ≤ e.2.score := by
  intro cs
  induction cs with
  | nil =>
    intro seen _ k d hmem
    exact ⟨(k, d), by simpa [dedupAux] using hmem, rfl, le_refl _⟩
  | cons c cs ih =>
    intro seen hnd k d hmem
    cases hl : seenLookup (key c.value) seen with
    | none =>
      rw [dedupAux_cons_none key cs hl]
      have hk : key c.value ∉ seen.map Prod.fst := seenLookup_none_iff.1 hl
      exact ih (seen ++ [(key c.value, c)])
        (by simp [List.nodup_append, hnd, hk]) k d (List.mem_append_left _ hmem)
    | some d₀ =>
      rw [dedupAux_cons_found key cs hl]
      by_cases hs : d₀.score < c.score
      · rw [if_pos hs]
        by_cases hk : k = key c.value
        · have hmem₂ : (key c.value, d) ∈ seen := hk ▸ hmem
          have hd : d = d₀ := entry_unique hnd hmem₂ (seenLookup_mem hl)
          have hself : (key c.value, c) ∈ seenReplace (key c.value) c seen :=
            mem_seenReplace_self (List.mem_map_of_mem Prod.fst hmem₂)
          obtain ⟨e, he, hek, hes⟩ := ih (seenReplace (key c.value) c seen)
            (by rw [keys_seenReplace]; exact hnd) (key c.value) c hself
          exact ⟨e, he, hek.trans hk.symm, le_trans (hd ▸ le_of_lt hs) hes⟩
        · exact ih (seenReplace (key c.value) c seen)
            (by rw [keys_seenReplace]; exact hnd) k d
            (mem_seenReplace_of_ne hmem hk)
      · rw [if_neg hs]
        exact ih seen hnd k d hmem

theorem dedupAux_cover {α : Type} (key : α → String) :
    ∀ (cs : List (Candidate α)) (seen : List (String × Candidate α)),
      (seen.map Prod.fst).Nodup →
      ∀ c₀ ∈ cs, ∃ e ∈ dedupAux key cs seen, e.1 = key c₀.value ∧ c₀.score ≤ e.2.score := by
  intro cs
  induction cs with
  | nil => intro seen _ c₀ h; simp at h
  | cons c cs ih =>
    intro seen hnd c₀ hc₀
    rcases List.mem_cons.1 hc₀ with rfl | hin
    · cases hl : seenLookup (key c₀.value) seen with
      | none =>
        rw [dedupAux_cons_none key cs hl]
        have hk : key c₀.value ∉ seen.map Prod.fst := seenLookup_none_iff.1 hl
        exact dedupAux_persist key cs _
          (by simp [List.nodup_append, hnd, hk]) (key c₀.value) c₀
          (List.mem_append_right _ (by simp))
      | some d₀ =>
        rw [dedupAux_cons_found key cs hl]
        by_cases hs : d₀.score < c₀.score
        · rw [if_pos hs]
          exact dedupAux_persist key cs _
            (by rw [keys_seenReplace]; exact hnd) (key c₀.value) c₀
            (mem_seenReplace_self (List.mem_map_of_mem Prod.fst (seenLookup_mem hl)))
        · rw [if_neg hs]
          obtain ⟨e, he, hek, hes⟩ := dedupAux_persist key cs seen hnd
            (key c₀.value) d₀ (seenLookup_mem hl)
          exact ⟨e, he, hek, le_trans (not_lt.1 hs) hes⟩
    · cases hl : seenLookup (key c.value) seen with
      | none =>
        rw [dedupAux_cons_none key cs hl]
        have hk : key c.value ∉ seen.map Prod.fst := seenLookup_none_iff.1 hl
        exact ih _ (by simp [List.nodup_append, hnd, hk]) c₀ hin
      | some d₀ =>
        rw [dedupAux_cons_found key cs hl]
        by_cases hs : d₀.score < c.score
        · rw [if_pos hs]
          exact ih _ (by rw [keys_seenReplace]; exact hnd) c₀ hin
        · rw [if_neg hs]
          exact ih seen hnd c₀ hin

/-- C3: amended.  `deduplicate_candidates` never increases the candidate
count, and for two candidates with the same normalized key where one scores
strictly higher, the lower-scoring one never survives and the group's
surviving representative scores at least as high as the higher of the two.
(The original claim also asserted the higher-scoring one itself survives;
with score ties inside a group that is false — see the counterexample.) -/
theorem claim_C3_dedup_amended {α : Type} (key : α → String)
    (cs : List (Candidate α)) :
    (deduplicate_candidates key cs).length ≤ cs.length ∧
      ∀ c₁ ∈ cs, ∀ c₂ ∈ cs, key c₁.value = key c₂.value → c₁.score < c₂.score →
        c₁ ∉ deduplicate_candidates key cs ∧
          ∃ d ∈ deduplicate_candidates key cs,
            key d.value = key c₂.value ∧ c₂.score ≤ d.score := by
  constructor
  · have h := dedupAux_length key cs []
    simpa [deduplicate_candidates] using h
  · intro c₁ h₁ c₂ h₂ hkey hs
    obtain ⟨e₂, he₂, hk₂, hs₂⟩ := dedupAux_cover key cs [] (by simp) c₂ h₂
    have hsound₂ := dedupAux_sound key cs [] e₂ he₂
    simp only [List.mem_nil_iff, false_or] at hsound₂
    constructor
    · intro hmem
      obtain ⟨e₁, he₁, he₁v⟩ := List.mem_map.1 hmem
      have hsound₁ := dedupAux_sound key cs [] e₁ he₁
      simp only [List.mem_nil_iff, false_or] at hsound₁
      have hnd := dedupAux_keys_nodup key cs [] (by simp)
      have hkey₁ : e₁.1 = e₂.1 := by
        rw [hsound₁.2, he₁v, hkey, ← hk₂]
      have hm₁ : (e₂.1, e₁.2) ∈ dedupAux key cs [] := by
        rw [← hkey₁]
        exact (Prod.mk.eta) ▸ he₁
      have hm₂ : (e₂.1, e₂.2) ∈ dedupAux key cs [] := (Prod.mk.eta) ▸ he₂
      have heq : e₁.2 = e₂.2 := entry_unique hnd hm₁ hm₂
      rw [he₁v] at heq
      rw [← heq] at hs₂
      exact absurd (lt_of_lt_of_le hs hs₂) (lt_irrefl _)
    · refine ⟨e₂.2, List.mem_map_of_mem _ he₂, ?_, hs₂⟩
      rw [← hsound₂.2, hk₂]

/-- C3: counterexample to the claim as stated.  Three candidates share one
normalized key; the first scores strictly below the third, yet the third is
not in the deduplicated output (the equal-scoring second candidate, seen
first, survives instead) — so "the higher-scoring one is in the output"
fails for the pair (first, third). -/
theorem claim_C3_counterexample :
    normalizeStringKey c3Low.value = normalizeStringKey c3Second.value ∧
      c3Low.score < c3Second.score ∧
      c3Low ∈ [c3Low, c3First, c3Second] ∧
      c3Second ∈ [c3Low, c3First, c3Second] ∧
      c3Second ∉ deduplicate_candidates normalizeStringKey [c3Low, c3First, c3Second] := by
  with_unfolding_all decide

/-- Witness for C3 (amended) at the counterexample's input list. -/
theorem claim_C3_witness :
    c3Low ∉ deduplicate_candidates normalizeStringKey [c3Low, c3First, c3Second] ∧
      ∃ d ∈ deduplicate_candidates normalizeStringKey [c3Low, c3First, c3Second],
        normalizeStringKey d.value = normalizeStringKey c3Second.value ∧
          c3Second.score ≤ d.score :=
  (claim_C3_dedup_amended normalizeStringKey [c3Low, c3First, c3Second]).2 c3Low
    (by with_unfolding_all decide) c3Second (by with_unfolding_all decide)
    (by with_unfolding_all decide) (by with_unfolding_all decide)

/-! ### Resolver lemmas -/

theorem winnerResult_value_mem {α : Type} {cs : List (Candidate α)} {v : α}
    (h : (winnerResult cs).value = some v) : ∃ w ∈ cs, w.value = v := by
  cases cs with
  | nil => simp [winnerResult, FieldResolver.nullResult] at h
  | cons w ws =>
    refine ⟨w, List.mem_cons_self .., ?_⟩
    have := h.symm
    simp [winnerResult] at this
    exact this.symm

theorem mem_deduplicate {α : Type} {key : α → String} {cs : List (Candidate α)}
    {w : Candidate α} (h : w ∈ deduplicate_candidates key cs) : w ∈ cs := by
  obtain ⟨e, he, hev⟩ := List.mem_map.1 h
  rcases dedupAux_sound key cs [] e he with h₂ | h₂
  · simp at h₂
  · rw [← hev]; exact h₂.1

theorem emailValidate_fst (mx : String → MxLookup) (email : String) (cm : Bool) :
    (EmailValidator.validate mx email cm).1 = emailFormatValid (pyStripLower email) := by
  unfold EmailValidator.validate
  cases hv : emailFormatValid (pyStripLower email) with
  | false => simp [hv]
  | true =>
    cases cm with
    | false => simp [hv]
    | true =>
      simp only [hv, if_true]
      rcases mx _ with tr | _ | _
      · cases tr <;> simp
      · simp
      · simp

theorem emailValidateStep_pos {mx : String → MxLookup} {c : Candidate String}
    (h : 0 < (emailValidateStep mx c).source_weight) :
    emailFormatValid (pyStripLower c.value) = true ∧
      (emailValidateStep mx c).value = c.value := by
  cases hb : (EmailValidator.validate mx c.value true).1 with
  | false =>
    exfalso
    simp only [emailValidateStep, hb, Bool.false_eq_true, if_false] at h
    exact absurd h (lt_irrefl 0)
  | true =>
    rw [emailValidate_fst] at hb
    refine ⟨hb, ?_⟩
    simp only [emailValidateStep]
    rw [emailValidate_fst, hb]
    simp

theorem emailValidateStep_fail {mx : String → MxLookup} {c : Candidate String}
    (h : emailFormatValid (pyStripLower c.value) = false) :
    (emailValidateStep mx c).source_weight = 0 := by
  simp only [emailValidateStep]
  rw [emailValidate_fst, h]
  simp

theorem phoneValidateStep_pos {pv : String → PhoneVerdict} {c : Candidate String}
    (h : 0 < (phoneValidateStep pv c).source_weight) :
    ∃ e, (pv c.value).e164 = some e ∧ (pv c.value).is_valid = true ∧ ¬(e = "") ∧
      (phoneValidateStep pv c).value = e := by
  cases he : (pv c.value).e164 with
  | none =>
    exfalso
    simp only [phoneValidateStep, he] at h
    exact absurd h (lt_irrefl 0)
  | some e =>
    by_cases hv : (pv c.value).is_valid && !(e = "")
    · refine ⟨e, rfl, ?_, ?_, ?_⟩
      · exact (Bool.and_eq_true_iff.1 hv).1
      · have := (Bool.and_eq_true_iff.1 hv).2
        simpa using this
      · simp only [phoneValidateStep, he, hv, if_true]
    · exfalso
      simp only [phoneValidateStep, he, hv, Bool.false_eq_true, if_false] at h
      exact absurd h (lt_irrefl 0)

theorem phoneValidateStep_fail {pv : String → PhoneVerdict} {c : Candidate String}
    (h : ¬((pv c.value).is_valid = true ∧ ∃ e, (pv c.value).e164 = some e ∧ ¬(e = ""))) :
    (phoneValidateStep pv c).source_weight = 0 := by
  cases he : (pv c.value).e164 with
  | none => simp [phoneValidateStep, he]
  | some e =>
    by_cases hv : (pv c.value).is_valid && !(e = "")
    · exfalso
      apply h
      refine ⟨(Bool.and_eq_true_iff.1 hv).1, e, he, by simpa using (Bool.and_eq_true_iff.1 hv).2⟩
    · simp [phoneValidateStep, he, hv]

theorem addressValidate_fst (addr : Address) (geo : Option String) :
    (AddressValidator.validate addr geo).1 =
      (truthyOpt addr.city || truthyOpt addr.region || truthyOpt addr.postal) := by
  unfold AddressValidator.validate
  cases hc : (truthyOpt addr.city || truthyOpt addr.region || truthyOpt addr.postal) with
  | false =>
    have : (!(truthyOpt addr.city || truthyOpt addr.region || truthyOpt addr.postal)) = true := by
      rw [hc]; rfl
    simp only [Bool.or_assoc] at this hc ⊢
    rw [if_pos this]
  | true =>
    have : (!(truthyOpt addr.city || truthyOpt addr.region || truthyOpt addr.postal)) = false := by
      rw [hc]; rfl
    simp only [Bool.or_assoc] at this hc ⊢
    rw [if_neg (by simp [this])]
    split <;> rfl

theorem addressValidateStep_pos {geo : Option String} {c : Candidate Address}
    (h : 0 < (addressValidateStep geo c).source_weight) :
    (truthyOpt c.value.city || truthyOpt c.value.region || truthyOpt c.value.postal) = true ∧
      (addressValidateStep geo c).value = c.value := by
  cases hb : (AddressValidator.validate c.value geo).1 with
  | false =>
    exfalso
    simp only [addressValidateStep, hb, Bool.false_eq_true, if_false] at h
    exact absurd h (lt_irrefl 0)
  | true =>
    rw [addressValidate_fst] at hb
    refine ⟨hb, ?_⟩
    simp only [addressValidateStep]
    rw [addressValidate_fst, hb]
    simp

theorem addressValidateStep_fail {geo : Option String} {c : Candidate Address}
    (h : (truthyOpt c.value.city || truthyOpt c.value.region || truthyOpt c.value.postal) = false) :
    (addressValidateStep geo c).source_weight = 0 := by
  simp only [addressValidateStep]
  rw [addressValidate_fst, h]
  simp

theorem colorsValidate_fst (co : String → String → Bool) (colors : List String) :
    (ColorValidator.validate co colors).1 = colors.all isHexColor := by
  unfold ColorValidator.validate
  cases hh : colors.all isHexColor with
  | false => simp [hh]
  | true => simp only [hh, if_true]; split <;> rfl

theorem colorsValidateStep_pos {co : String → String → Bool}
    {c : Candidate (List String)}
    (h : 0 < (colorsValidateStep co c).source_weight) :
    c.value.all isHexColor = true ∧ (colorsValidateStep co c).value = c.value := by
  cases hb : (ColorValidator.validate co c.value).1 with
  | false =>
    exfalso
    simp only [colorsValidateStep, hb, Bool.false_eq_true, if_false] at h
    exact absurd h (lt_irrefl 0)
  | true =>
    rw [colorsValidate_fst] at hb
    refine ⟨hb, ?_⟩
    simp only [colorsValidateStep]
    rw [colorsValidate_fst, hb]
    simp

theorem colorsValidateStep_fail {co : String → String → Bool}
    {c : Candidate (List String)} (h : c.value.all isHexColor = false) :
    (colorsValidateStep co c).source_weight = 0 := by
  simp only [colorsValidateStep]
  rw [colorsValidate_fst, h]
  simp

theorem resolve_email_cons (mx : String → MxLookup) (c : Candidate String)
    (cs' : List (Candidate String)) :
    FieldResolver.resolve_email mx (c :: cs') =
      (match ((c :: cs').map (emailValidateStep mx)).filter
          (fun c => decide (0 < c.source_weight)) with
       | [] => FieldResolver.nullResult
       | k :: ks =>
         winnerResult (score_candidates (deduplicate_candidates normalizeStringKey (k :: ks)))) :=
  rfl

theorem resolve_phone_cons (pv : String → PhoneVerdict) (c : Candidate String)
    (cs' : List (Candidate String)) :
    FieldResolver.resolve_phone pv (c :: cs') =
      (match ((c :: cs').map (phoneValidateStep pv)).filter
          (fun c => decide (0 < c.source_weight)) with
       | [] => FieldResolver.nullResult
       | k :: ks =>
         winnerResult (score_candidates (deduplicate_candidates normalizeStringKey (k :: ks)))) :=
  rfl

theorem resolve_address_cons (geo : Option String) (c : Candidate Address)
    (cs' : List (Candidate Address)) :
    FieldResolver.resolve_address geo (c :: cs') =
      (match ((c :: cs').map (addressValidateStep geo)).filter
          (fun c => decide (0 < c.source_weight)) with
       | [] => FieldResolver.nullResult
       | k :: ks => winnerResult (score_candidates (k :: ks))) :=
  rfl

theorem resolve_colors_cons (co : String → String → Bool)
    (c : Candidate (List String)) (cs' : List (Candidate (List String))) :
    FieldResolver.resolve_colors co (c :: cs') =
      (match ((c :: cs').map (colorsValidateStep co)).filter
          (fun c => decide (0 < c.source_weight)) with
       | [] => FieldResolver.nullResult
       | k :: ks => winnerResult (score_candidates (k :: ks))) :=
  rfl

theorem resolve_email_value_valid (mx : String → MxLookup)
    (cs : List (Candidate String)) (v : String)
    (h : (FieldResolver.resolve_email mx cs).value = some v) :
    emailFormatValid (pyStripLower v) = true := by
  cases cs with
  | nil => simp [FieldResolver.resolve_email, FieldResolver.nullResult] at h
  | cons c cs' =>
    rw [resolve_email_cons] at h
    cases hk : ((c :: cs').map (emailValidateStep mx)).filter
        (fun c => decide (0 < c.source_weight)) with
    | nil => rw [hk] at h; simp [FieldResolver.nullResult] at h
    | cons k ks =>
      rw [hk] at h
      obtain ⟨w, hw, hwv⟩ := winnerResult_value_mem h
      have hw₂ : w ∈ k :: ks := mem_deduplicate (mem_score_candidates.1 hw)
      rw [← hk] at hw₂
      obtain ⟨hwm, hwp⟩ := List.mem_filter.1 hw₂
      obtain ⟨c₀, _, hc₀⟩ := List.mem_map.1 hwm
      have hpos : 0 < (emailValidateStep mx c₀).source_weight := by
        rw [hc₀]; exact of_decide_eq_true hwp
      obtain ⟨hfmt, hval⟩ := emailValidateStep_pos hpos
      rw [← hwv, ← hc₀, hval] at *
      exact hfmt

theorem resolve_phone_value_valid (pv : String → PhoneVerdict)
    (cs : List (Candidate String)) (v : String)
    (h : (FieldResolver.resolve_phone pv cs).value = some v) :
    ∃ c ∈ cs, (pv c.value).is_valid = true ∧ (pv c.value).e164 = some v ∧ ¬(v = "") := by
  cases cs with
  | nil => simp [FieldResolver.resolve_phone, FieldResolver.nullResult] at h
  | cons c cs' =>
    rw [resolve_phone_cons] at h
    cases hk : ((c :: cs').map (phoneValidateStep pv)).filter
        (fun c => decide (0 < c.source_weight)) with
    | nil => rw [hk] at h; simp [FieldResolver.nullResult] at h
    | cons k ks =>
      rw [hk] at h
      obtain ⟨w, hw, hwv⟩ := winnerResult_value_mem h
      have hw₂ : w ∈ k :: ks := mem_deduplicate (mem_score_candidates.1 hw)
      rw [← hk] at hw₂
      obtain ⟨hwm, hwp⟩ := List.mem_filter.1 hw₂
      obtain ⟨c₀, hc₀m, hc₀⟩ := List.mem_map.1 hwm
      have hpos : 0 < (phoneValidateStep pv c₀).source_weight := by
        rw [hc₀]; exact of_decide_eq_true hwp
      obtain ⟨e, he, hvalid, hne, hval⟩ := phoneValidateStep_pos hpos
      refine ⟨c₀, hc₀m, hvalid, ?_, ?_⟩
      · rw [← hwv, ← hc₀, hval]; exact he
      · rw [← hwv, ← hc₀, hval]; exact hne

theorem resolve_address_value_valid (geo : Option String)
    (cs : List (Candidate Address)) (a : Address)
    (h : (FieldResolver.resolve_address geo cs).value = some a) :
    (truthyOpt a.city || truthyOpt a.region || truthyOpt a.postal) = true := by
  cases cs with
  | nil => simp [FieldResolver.resolve_address, FieldResolver.nullResult] at h
  | cons c cs' =>
    rw [resolve_address_cons] at h
    cases hk : ((c :: cs').map (addressValidateStep geo)).filter
        (fun c => decide (0 < c.source_weight)) with
    | nil => rw [hk] at h; simp [FieldResolver.nullResult] at h
    | cons k ks =>
      rw [hk] at h
      obtain ⟨w, hw, hwv⟩ := winnerResult_value_mem h
      have hw₂ : w ∈ k :: ks := mem_score_candidates.1 hw
      rw [← hk] at hw₂
      obtain ⟨hwm, hwp⟩ := List.mem_filter.1 hw₂
      obtain ⟨c₀, _, hc₀⟩ := List.mem_map.1 hwm
      have hpos : 0 < (addressValidateStep geo c₀).source_weight := by
        rw [hc₀]; exact of_decide_eq_true hwp
      obtain ⟨hok, hval⟩ := addressValidateStep_pos hpos
      rw [← hwv, ← hc₀, hval]
      exact hok

theorem resolve_colors_value_valid (co : String → String → Bool)
    (cs : List (Candidate (List String))) (vs : List String)
    (h : (FieldResolver.resolve_colors co cs).value = some vs) :
    vs.all isHexColor = true := by
  cases cs with
  | nil => simp [FieldResolver.resolve_colors, FieldResolver.nullResult] at h
  | cons c cs' =>
    rw [resolve_colors_cons] at h
    cases hk : ((c :: cs').map (colorsValidateStep co)).filter
        (fun c => decide (0 < c.source_weight)) with
    | nil => rw [hk] at h; simp [FieldResolver.nullResult] at h
    | cons k ks =>
      rw [hk] at h
      obtain ⟨w, hw, hwv⟩ := winnerResult_value_mem h
      have hw₂ : w ∈ k :: ks := mem_score_candidates.1 hw
      rw [← hk] at hw₂
      obtain ⟨hwm, hwp⟩ := List.mem_filter.1 hw₂
      obtain ⟨c₀, _, hc₀⟩ := List.mem_map.1 hwm
      have hpos : 0 < (colorsValidateStep co c₀).source_weight := by
        rw [hc₀]; exact of_decide_eq_true hwp
      obtain ⟨hok, hval⟩ := colorsValidateStep_pos hpos
      rw [← hwv, ← hc₀, hval]
      exact hok

/-- C2: in every validated resolution (email, phone, address, colors) a
candidate whose validator fails has its `source_weight` set to 0 (the
validation step is a total function — nothing is raised), every candidate
kept for winner selection has strictly positive `source_weight`, and
consequently a winning value always comes from a candidate that passed its
validator: a resolved email value is format-valid, a resolved phone value is
the E.164 form of a candidate the phone library accepted, a resolved address
has a truthy city, region or postal component, and a resolved color list is
all six-digit hex. -/
theorem claim_C2_failed_validator_never_wins :
    (∀ (mx : String → MxLookup) (c : Candidate String),
        emailFormatValid (pyStripLower c.value) = false →
          (emailValidateStep mx c).source_weight = 0) ∧
      (∀ (pv : String → PhoneVerdict) (c : Candidate String),
        ¬((pv c.value).is_valid = true ∧ ∃ e, (pv c.value).e164 = some e ∧ ¬(e = "")) →
          (phoneValidateStep pv c).source_weight = 0) ∧
      (∀ (geo : Option String) (c : Candidate Address),
        (truthyOpt c.value.city || truthyOpt c.value.region || truthyOpt c.value.postal) = false →
          (addressValidateStep geo c).source_weight = 0) ∧
      (∀ (co : String → String → Bool) (c : Candidate (List String)),
        c.value.all isHexColor = false →
          (colorsValidateStep co c).source_weight = 0) ∧
      (∀ (α : Type) (cs : List (Candidate α)),
        ∀ c ∈ cs.filter (fun c => decide (0 < c.source_weight)), 0 < c.source_weight) ∧
      (∀ (mx : String → MxLookup) (cs : List (Candidate String)) (v : String),
        (FieldResolver.resolve_email mx cs).value = some v →
          emailFormatValid (pyStripLower v) = true) ∧
      (∀ (pv : String → PhoneVerdict) (cs : List (Candidate String)) (v : String),
        (FieldResolver.resolve_phone pv cs).value = some v →
          ∃ c ∈ cs, (pv c.value).is_valid = true ∧ (pv c.value).e164 = some v ∧ ¬(v = "")) ∧
      (∀ (geo : Option String) (cs : List (Candidate Address)) (a : Address),
        (FieldResolver.resolve_address geo cs).value = some a →
          (truthyOpt a.city || truthyOpt a.region || truthyOpt a.postal) = true) ∧
      ∀ (co : String → String → Bool) (cs : List (Candidate (List String)))
          (vs : List String),
        (FieldResolver.resolve_colors co cs).value = some vs →
          vs.all isHexColor = true := by
  refine ⟨?_, ?_, ?_, ?_, ?_, ?_, ?_, ?_, ?_⟩
  · intro mx c h; exact emailValidateStep_fail h
  · intro pv c h; exact phoneValidateStep_fail h
  · intro geo c h; exact addressValidateStep_fail h
  · intro co c h; exact colorsValidateStep_fail h
  · intro α cs c hc; exact of_decide_eq_true (List.mem_filter.1 hc).2
  · exact resolve_email_value_valid
  · exact resolve_phone_value_valid
  · exact resolve_address_value_valid
  · exact resolve_colors_value_valid

/-- Witness for C2: the email conjunct applied to a concrete resolution
whose winner is `test@example.com`. -/
theorem claim_C2_witness : emailFormatValid (pyStripLower "test@example.com") = true :=
  claim_C2_failed_validator_never_wins.2.2.2.2.2.1 mxNone [c2Email] "test@example.com"
    (by with_unfolding_all decide)

theorem resolve_email_all_invalid (mx : String → MxLookup)
    (cs : List (Candidate String))
    (h : ∀ c ∈ cs, emailFormatValid (pyStripLower c.value) = false) :
    FieldResolver.resolve_email mx cs = FieldResolver.nullResult := by
  cases cs with
  | nil => rfl
  | cons c cs' =>
    rw [resolve_email_cons]
    have hfil : ((c :: cs').map (emailValidateStep mx)).filter
        (fun c => decide (0 < c.source_weight)) = [] := by
      rw [List.filter_eq_nil]
      intro w hw
      obtain ⟨c₀, hc₀m, hc₀⟩ := List.mem_map.1 hw
      rw [← hc₀]
      simp [emailValidateStep_fail (h c₀ hc₀m)]
    rw [hfil]

theorem resolve_phone_all_invalid (pv : String → PhoneVerdict)
    (cs : List (Candidate String))
    (h : ∀ c ∈ cs,
      ¬((pv c.value).is_valid = true ∧ ∃ e, (pv c.value).e164 = some e ∧ ¬(e = ""))) :
    FieldResolver.resolve_phone pv cs = FieldResolver.nullResult := by
  cases cs with
  | nil => rfl
  | cons c cs' =>
    rw [resolve_phone_cons]
    have hfil : ((c :: cs').map (phoneValidateStep pv)).filter
        (fun c => decide (0 < c.source_weight)) = [] := by
      rw [List.filter_eq_nil]
      intro w hw
      obtain ⟨c₀, hc₀m, hc₀⟩ := List.mem_map.1 hw
      rw [← hc₀]
      simp [phoneValidateStep_fail (h c₀ hc₀m)]
    rw [hfil]

theorem resolve_address_all_invalid (geo : Option String)
    (cs : List (Candidate Address))
    (h : ∀ c ∈ cs,
      (truthyOpt c.value.city || truthyOpt c.value.region || truthyOpt c.value.postal) = false) :
    FieldResolver.resolve_address geo cs = FieldResolver.nullResult := by
  cases cs with
  | nil => rfl
  | cons c cs' =>
    rw [resolve_address_cons]
    have hfil : ((c :: cs').map (addressValidateStep geo)).filter
        (fun c => decide (0 < c.source_weight)) = [] := by
      rw [List.filter_eq_nil]
      intro w hw
      obtain ⟨c₀, hc₀m, hc₀⟩ := List.mem_map.1 hw
      rw [← hc₀]
      simp [addressValidateStep_fail (h c₀ hc₀m)]
    rw [hfil]

theorem resolve_colors_all_invalid (co : String → String → Bool)
    (cs : List (Candidate (List String)))
    (h : ∀ c ∈ cs, c.value.all isHexColor = false) :
    FieldResolver.resolve_colors co cs = FieldResolver.nullResult := by
  cases cs with
  | nil => rfl
  | cons c cs' =>
    rw [resolve_colors_cons]
    have hfil : ((c :: cs').map (colorsValidateStep co)).filter
        (fun c => decide (0 < c.source_weight)) = [] := by
      rw [List.filter_eq_nil]
      intro w hw
      obtain ⟨c₀, hc₀m, hc₀⟩ := List.mem_map.1 hw
      rw [← hc₀]
      simp [colorsValidateStep_fail (h c₀ hc₀m)]
    rw [hfil]

theorem resolve_socials_none (plats : List (String × List (Candidate String)))
    (h : ∀ p ∈ plats, p.2 = []) :
    FieldResolver.resolve_socials plats = ⟨none, 0, [], "found 0 platforms"⟩ := by
  have h1 : plats.map (fun pc =>
      match pc.2 with
      | [] => (pc.1, (none : Option String), ([] : List Provenance))
      | c :: cs =>
        match score_candidates (deduplicate_candidates normalizeStringKey (c :: cs)) with
        | [] => (pc.1, (none : Option String), ([] : List Provenance))
        | w :: _ => (pc.1, some w.value, w.provenance)) =
      plats.map (fun pc => (pc.1, (none : Option String), ([] : List Provenance))) :=
    List.map_congr_left (fun pc hpc => by rw [h pc hpc])
  have hcount : ∀ (l : List (String × List (Candidate String))),
      ((l.map (fun pc => ((pc.1 : String), (none : Option String), ([] : List Provenance)))).map
          (fun e => (e.1, e.2.1))).filter (fun e => e.2.isSome) = [] := by
    intro l
    induction l with
    | nil => rfl
    | cons p ps ih => simpa using ih
  have hprov : ∀ (l : List (String × List (Candidate String))) (acc : List Provenance),
      (l.map (fun pc =>
        ((pc.1 : String), (none : Option String), ([] : List Provenance)))).foldl
          (fun acc e => acc ++ e.2.2) acc = acc := by
    intro l
    induction l with
    | nil => intro acc; rfl
    | cons p ps ih => intro acc; simpa using ih acc
  simp only [FieldResolver.resolve_socials, h1, hcount, hprov]
  rfl

/-- C4: amended.  Every list-based resolver maps the empty candidate list —
and, for the validated fields, any list whose candidates are all
invalidated — to the explicit null `FieldResult` `(value = none,
confidence = 0, provenance = [], notes = "not found")` without raising;
`resolve_socials` with no resolving platform likewise returns value `none`
and confidence `0`, but its notes read `found 0 platforms` rather than
`not found` (see the counterexample). -/
theorem claim_C4_null_results :
    FieldResolver.resolve_brand_name [] = FieldResolver.nullResult ∧
      (∀ mx, FieldResolver.resolve_email mx [] = FieldResolver.nullResult) ∧
      (∀ pv, FieldResolver.resolve_phone pv [] = FieldResolver.nullResult) ∧
      (∀ geo, FieldResolver.resolve_address geo [] = FieldResolver.nullResult) ∧
      FieldResolver.resolve_services [] = FieldResolver.nullResult ∧
      (∀ co, FieldResolver.resolve_colors co [] = FieldResolver.nullResult) ∧
      FieldResolver.resolve_logo [] = FieldResolver.nullResult ∧
      FieldResolver.resolve_text [] = FieldResolver.nullResult ∧
      (∀ sq, FieldResolver.resolve_images sq [] = FieldResolver.nullResult) ∧
      (∀ mx cs, (∀ c ∈ cs, emailFormatValid (pyStripLower c.value) = false) →
        FieldResolver.resolve_email mx cs = FieldResolver.nullResult) ∧
      (∀ pv cs, (∀ c ∈ cs,
          ¬((pv c.value).is_valid = true ∧ ∃ e, (pv c.value).e164 = some e ∧ ¬(e = ""))) →
        FieldResolver.resolve_phone pv cs = FieldResolver.nullResult) ∧
      (∀ geo cs, (∀ c ∈ cs,
          (truthyOpt c.value.city || truthyOpt c.value.region ||
            truthyOpt c.value.postal) = false) →
        FieldResolver.resolve_address geo cs = FieldResolver.nullResult) ∧
      (∀ co cs, (∀ c ∈ cs, c.value.all isHexColor = false) →
        FieldResolver.resolve_colors co cs = FieldResolver.nullResult) ∧
      ∀ plats, (∀ p ∈ plats, p.2 = []) →
        FieldResolver.resolve_socials plats = ⟨none, 0, [], "found 0 platforms"⟩ := by
  refine ⟨rfl, fun _ => rfl, fun _ => rfl, fun _ => rfl, rfl, fun _ => rfl, rfl, rfl,
    fun _ => rfl, ?_, ?_, ?_, ?_, ?_⟩
  · exact resolve_email_all_invalid
  · exact resolve_phone_all_invalid
  · exact resolve_address_all_invalid
  · exact resolve_colors_all_invalid
  · exact resolve_socials_none

/-- C4: counterexample to the claim as stated.  When no social platform
resolves, `resolve_socials` returns value `none` and confidence `0`, but its
notes are `found 0 platforms`, not the `not found` of the null result the
claim promises for every resolver. -/
theorem claim_C4_counterexample :
    (FieldResolver.resolve_socials []).value = none ∧
      (FieldResolver.resolve_socials []).confidence = 0 ∧
      (FieldResolver.resolve_socials []).notes = "found 0 platforms" ∧
      ¬((FieldResolver.resolve_socials []).notes = "not found") ∧
      ¬(FieldResolver.resolve_socials [] =
        (FieldResolver.nullResult : FieldResult (List (String × Option String)))) := by
  with_unfolding_all decide

/-- Witness for C4 (amended): the all-invalid email case at a concrete list. -/
theorem claim_C4_witness :
    FieldResolver.resolve_email mxNone [c4BadEmail] = FieldResolver.nullResult :=
  claim_C4_null_results.2.2.2.2.2.2.2.2.2.1 mxNone [c4BadEmail]
    (by with_unfolding_all decide)

theorem imgDedupAux_sound (sq : String → String) :
    ∀ (cs : List (Candidate String)) (seen : List String) (x : Candidate String),
      x ∈ imgDedupAux sq cs seen → x ∈ cs := by
  intro cs
  induction cs with
  | nil => intro seen x h; simp [imgDedupAux] at h
  | cons c cs ih =>
    intro seen x h
    by_cases hc : seen.contains (normalizeImageUrl sq c.value)
    · simp only [imgDedupAux, hc, if_true] at h
      exact List.mem_cons_of_mem _ (ih _ x h)
    · simp only [imgDedupAux, hc, Bool.false_eq_true, if_false, List.mem_cons] at h
      rcases h with h | h
      · exact h ▸ List.mem_cons_self ..
      · exact List.mem_cons_of_mem _ (ih _ x h)

theorem resolve_images_value (sq : String → String) (cs : List (Candidate String))
    (vs : List String)
    (h : (FieldResolver.resolve_images sq cs).value = some vs) :
    vs ≠ [] ∧
      vs = (((score_candidates (score_candidates (imgDedupAux sq cs []))).take 50).map
        (fun c => c.value)).filter (fun v => !(v = "")) := by
  cases cs with
  | nil => simp [FieldResolver.resolve_images, FieldResolver.nullResult] at h
  | cons c cs' =>
    simp only [FieldResolver.resolve_images] at h
    cases hu : (((score_candidates
        (score_candidates (imgDedupAux sq (c :: cs') []))).take 50).map
          (fun c => c.value)).filter (fun v => !(v = "")) with
    | nil => rw [hu] at h; simp [FieldResolver.nullResult] at h
    | cons u us =>
      rw [hu] at h
      simp only [FieldResult.mk.injEq] at h
      have hvs : vs = u :: us := by
        have := h
        simp at this
        exact this.symm
      subst hvs
      exact ⟨by simp, rfl⟩

/-- C7: amended.  `resolve_images` does not pick a single list-valued
winner: the image candidates are single-URL-valued, and the result merges
up to 50 of them (deduplicated by normalized URL, sorted by score) into one
list whose confidence is the average of the kept scores.  What survives of
the claim: a non-null result is a non-empty list of at most 50 URLs, each
being the value of some input candidate and none empty. -/
theorem claim_C7_images_amended (sq : String → String)
    (cs : List (Candidate String)) (vs : List String)
    (h : (FieldResolver.resolve_images sq cs).value = some vs) :
    vs ≠ [] ∧ vs.length ≤ 50 ∧ ∀ v ∈ vs, ¬(v = "") ∧ ∃ c ∈ cs, c.value = v := by
  obtain ⟨hne, hvs⟩ := resolve_images_value sq cs vs h
  refine ⟨hne, ?_, ?_⟩
  · rw [hvs]
    calc ((((score_candidates (score_candidates (imgDedupAux sq cs []))).take 50).map
          (fun c => c.value)).filter (fun v => !(v = ""))).length
        ≤ (((score_candidates (score_candidates (imgDedupAux sq cs []))).take 50).map
          (fun c => c.value)).length := List.length_filter_le _ _
      _ = ((score_candidates (score_candidates (imgDedupAux sq cs []))).take 50).length :=
          List.length_map ..
      _ ≤ 50 := List.length_take_le ..
  · intro v hv
    rw [hvs] at hv
    have hv₂ := List.mem_filter.1 hv
    refine ⟨by simpa using hv₂.2, ?_⟩
    obtain ⟨c, hc, hcv⟩ := List.mem_map.1 hv₂.1
    have hc₂ : c ∈ score_candidates (score_candidates (imgDedupAux sq cs [])) :=
      List.take_subset _ _ hc
    have hc₃ : c ∈ cs :=
      imgDedupAux_sound sq cs [] c (mem_score_candidates.1 (mem_score_candidates.1 hc₂))
    exact ⟨c, hc₃, hcv⟩

/-- C7: counterexample to the claim as stated.  Two image candidates with
distinct URL values resolve to a `FieldResult` whose value is the merged
two-element list and whose confidence is the average of the two scores —
not to the single highest-scoring candidate (whose value is one URL and
whose score is nine tenths). -/
theorem claim_C7_counterexample :
    (FieldResolver.resolve_images (fun s => s) [c7High, c7Low]).value =
        some ["http://a/x.png", "http://a/y.png"] ∧
      (∀ c ∈ [c7High, c7Low],
        ¬((FieldResolver.resolve_images (fun s => s) [c7High, c7Low]).value =
          some [c.value])) ∧
      (FieldResolver.resolve_images (fun s => s) [c7High, c7Low]).confidence = 7/10 ∧
      ¬((FieldResolver.resolve_images (fun s => s) [c7High, c7Low]).confidence =
        c7High.score) := by
  with_unfolding_all decide

/-- Witness for C7 (amended) at the counterexample's concrete input. -/
theorem claim_C7_witness :
    (["http://a/x.png", "http://a/y.png"] : List String) ≠ [] ∧
      (["http://a/x.png", "http://a/y.png"] : List String).length ≤ 50 ∧
      ∀ v ∈ (["http://a/x.png", "http://a/y.png"] : List String),
        ¬(v = "") ∧ ∃ c ∈ [c7High, c7Low], c.value = v :=
  claim_C7_images_amended (fun s => s) [c7High, c7Low]
    ["http://a/x.png", "http://a/y.png"] (by with_unfolding_all decide)

theorem bestContributor_fst_ge (cs : List (Candidate (List String))) :
    ∀ (s : ℚ) (b : Option (Candidate (List String))),
      s ≤ (cs.foldl (fun st c =>
          if st.1 < mergeScore c then (mergeScore c, some c) else st) (s, b)).1 ∧
      ∀ c ∈ cs, mergeScore c ≤ (cs.foldl (fun st c =>
          if st.1 < mergeScore c then (mergeScore c, some c) else st) (s, b)).1 := by
  induction cs with
  | nil => intro s b; exact ⟨le_refl _, by simp⟩
  | cons c cs ih =>
    intro s b
    by_cases hc : s < mergeScore c
    · simp only [List.foldl_cons, if_pos hc]
      obtain ⟨h₁, h₂⟩ := ih (mergeScore c) (some c)
      refine ⟨le_trans (le_of_lt hc) h₁, ?_⟩
      intro c₀ hc₀
      rcases List.mem_cons.1 hc₀ with rfl | hin
      · exact h₁
      · exact h₂ c₀ hin
    · simp only [List.foldl_cons, if_neg hc]
      obtain ⟨h₁, h₂⟩ := ih s b
      refine ⟨h₁, ?_⟩
      intro c₀ hc₀
      rcases List.mem_cons.1 hc₀ with rfl | hin
      · exact le_trans (not_lt.1 hc) h₁
      · exact h₂ c₀ hin

theorem bestContributor_shape (cs : List (Candidate (List String))) :
    ∀ (s : ℚ) (b : Option (Candidate (List String))),
      (cs.foldl (fun st c =>
          if st.1 < mergeScore c then (mergeScore c, some c) else st) (s, b)) = (s, b) ∨
        ∃ b' ∈ cs, (cs.foldl (fun st c =>
          if st.1 < mergeScore c then (mergeScore c, some c) else st) (s, b)) =
            (mergeScore b', some b') := by
  induction cs with
  | nil => intro s b; left; rfl
  | cons c cs ih =>
    intro s b
    by_cases hc : s < mergeScore c
    · simp only [List.foldl_cons, if_pos hc]
      rcases ih (mergeScore c) (some c) with h | ⟨b', hb', h⟩
      · right; exact ⟨c, List.mem_cons_self .., h⟩
      · right; exact ⟨b', List.mem_cons_of_mem _ hb', h⟩
    · simp only [List.foldl_cons, if_neg hc]
      rcases ih s b with h | ⟨b', hb', h⟩
      · left; exact h
      · right; exact ⟨b', List.mem_cons_of_mem _ hb', h⟩

theorem mergeScore_pos {c : Candidate (List String)}
    (hs : 0 ≤ c.source_weight) (hm : 0 ≤ c.method_weight) : 0 < mergeScore c := by
  unfold mergeScore
  apply mul_pos
  · by_cases h : c.source_weight = 0
    · rw [if_pos h]; norm_num
    · rw [if_neg h]; exact lt_of_le_of_ne hs (Ne.symm h)
  · by_cases h : c.method_weight = 0
    · rw [if_pos h]; norm_num
    · rw [if_neg h]; exact lt_of_le_of_ne hm (Ne.symm h)

/-- C8: amended.  With two or more service-list candidates contributing at
least one name (weights nonnegative, as everywhere in the pipeline), the
orchestrator replaces them by one merged candidate whose value is the
sorted deduplicated union and which carries the provenance, source weight,
and method weight of the contributor maximizing
`(source_weight or 0.5) * (method_weight or 0.5)` — the candidate score's
validator bonus plays no role in this choice (see the counterexample), and
the merged candidate's own validator bonus is reset to 0. -/
theorem claim_C8_service_merge (cs : List (Candidate (List String)))
    (hlen : 2 ≤ cs.length)
    (hw : ∀ c ∈ cs, 0 ≤ c.source_weight ∧ 0 ≤ c.method_weight)
    (hserv : ¬(collectServices cs = [])) :
    ∃ b ∈ cs, (∀ c ∈ cs, mergeScore c ≤ mergeScore b) ∧
      TruthExtractor.merge_service_candidates cs =
        [⟨sortStringsAsc (collectServices cs), b.source_weight, b.method_weight, 0,
          b.provenance, "merged from " ++ toString cs.length ++ " pages"⟩] := by
  cases cs with
  | nil => simp at hlen
  | cons c rest =>
    have hshape := bestContributor_shape (c :: rest) 0 none
    have hge := bestContributor_fst_ge (c :: rest) 0 none
    have hcpos : 0 < mergeScore c :=
      mergeScore_pos (hw c (List.mem_cons_self ..)).1 (hw c (List.mem_cons_self ..)).2
    rcases hshape with h | ⟨b, hb, h⟩
    · exfalso
      have := hge.2 c (List.mem_cons_self ..)
      rw [show ((c :: rest).foldl (fun st c =>
          if st.1 < mergeScore c then (mergeScore c, some c) else st)
          ((0 : ℚ), (none : Option (Candidate (List String))))) = (0, none) from h] at this
      exact absurd (lt_of_lt_of_le hcpos this) (lt_irrefl 0)
    · refine ⟨b, hb, ?_, ?_⟩
      · intro c₀ hc₀
        have := hge.2 c₀ hc₀
        rw [show ((c :: rest).foldl (fun st c =>
            if st.1 < mergeScore c then (mergeScore c, some c) else st)
            ((0 : ℚ), (none : Option (Candidate (List String))))) =
          (mergeScore b, some b) from h] at this
        exact this
      · have hb2 : (bestContributor (c :: rest)).2 = some b := by
          unfold bestContributor
          rw [show ((c :: rest).foldl (fun st c =>
              if st.1 < mergeScore c then (mergeScore c, some c) else st)
              ((0 : ℚ), (none : Option (Candidate (List String))))) =
            (mergeScore b, some b) from h]
        simp only [TruthExtractor.merge_service_candidates, hb2]
        have hne : (collectServices (c :: rest)).isEmpty = false := by
          cases hemp : collectServices (c :: rest) with
          | nil => exact absurd hemp hserv
          | cons x xs => rfl
        have hcond : (decide (1 < (c :: rest).length) &&
            !(collectServices (c :: rest)).isEmpty) = true := by
          rw [hne, decide_eq_true (show (1 : Nat) < (c :: rest).length by simpa using hlen)]
          rfl
        rw [hcond]
        simp

/-- C8: counterexample to the claim as stated.  Of two service-list
candidates, the first has the strictly higher candidate score (its
validator bonus lifts it to three quarters), yet the merged candidate
carries the weights and provenance of the second, because the merge picks
its best contributor by `(source_weight or 0.5) * (method_weight or 0.5)`,
ignoring the validator bonus. -/
theorem claim_C8_counterexample :
    c8Bonus.score = 3/4 ∧ c8Plain.score = 9/25 ∧ c8Plain.score < c8Bonus.score ∧
      (TruthExtractor.merge_service_candidates [c8Bonus, c8Plain]).map
        (fun c => (c.source_weight, c.method_weight, c.provenance)) =
        [(3/5, 3/5, [⟨"u2", "p2"⟩])] ∧
      ¬((TruthExtractor.merge_service_candidates [c8Bonus, c8Plain]).map
        (fun c => c.source_weight) = [c8Bonus.source_weight]) := by
  with_unfolding_all decide

/-- Witness for C8 (amended) at the counterexample's concrete pair. -/
theorem claim_C8_witness :
    ∃ b ∈ [c8Bonus, c8Plain],
      (∀ c ∈ [c8Bonus, c8Plain], mergeScore c ≤ mergeScore b) ∧
        TruthExtractor.merge_service_candidates [c8Bonus, c8Plain] =
          [⟨sortStringsAsc (collectServices [c8Bonus, c8Plain]), b.source_weight,
            b.method_weight, 0, b.provenance,
            "merged from " ++ toString ([c8Bonus, c8Plain] : List (Candidate (List String))).length ++ " pages"⟩] :=
  claim_C8_service_merge [c8Bonus, c8Plain] (by with_unfolding_all decide)
    (by with_unfolding_all decide) (by with_unfolding_all decide)

/-! ### Crawler lemmas -/

theorem shouldCrawlUrl_not_seen {W : WebOracle} {n base : String}
    {vis q : List String} (h : shouldCrawlUrl W n base vis q = true) :
    n ∉ vis ∧ n ∉ q := by
  unfold shouldCrawlUrl at h
  by_cases hm : (vis.contains n || q.contains n) = true
  · rw [if_pos hm] at h
    exact absurd h (by simp)
  · constructor
    · intro hmem
      exact hm (by simp [List.contains, List.elem_iff, hmem])
    · intro hmem
      exact hm (by simp [List.contains, List.elem_iff, hmem])

theorem enqueueLinks_const (W : WebOracle) (cfg : CrawlConfig) (base u : String)
    (d : Nat) : ∀ (ls : List String) (st : CrawlSt),
    (enqueueLinks W cfg base u d ls st).visited = st.visited ∧
      (enqueueLinks W cfg base u d ls st).pages = st.pages ∧
      (enqueueLinks W cfg base u d ls st).failed_urls = st.failed_urls ∧
      (enqueueLinks W cfg base u d ls st).fetched = st.fetched := by
  intro ls
  induction ls with
  | nil => intro st; exact ⟨rfl, rfl, rfl, rfl⟩
  | cons l ls ih =>
    intro st
    simp only [enqueueLinks]
    by_cases hs : shouldCrawlUrl W (W.normalize l u) base st.visited st.queued = true
    · simp only [hs, if_true]
      by_cases hb : cfg.max_pages ≤
          (st.queue ++ [(W.normalize l u, d + 1)]).length + st.visited.length
      · simp only [if_pos hb]
        refine ⟨?_, ?_, ?_, ?_⟩ <;> trivial
      · simp only [if_neg hb]
        exact ih _
    · simp only [Bool.not_eq_true] at hs
      simp only [hs, Bool.false_eq_true, if_false]
      exact ih st

theorem enqueueLinks_queue_inv (W : WebOracle) (cfg : CrawlConfig) (base u : String)
    (d : Nat) (hdep : d + 1 ≤ cfg.max_depth) :
    ∀ (ls : List String) (st : CrawlSt),
      (∀ e ∈ st.queue, e.2 ≤ cfg.max_depth) →
      (st.queue.map Prod.fst).Nodup →
      (∀ v ∈ st.queue.map Prod.fst, v ∈ st.queued) →
      (∀ v ∈ st.queue.map Prod.fst, v ∉ st.visited) →
      (∀ e ∈ (enqueueLinks W cfg base u d ls st).queue, e.2 ≤ cfg.max_depth) ∧
        ((enqueueLinks W cfg base u d ls st).queue.map Prod.fst).Nodup ∧
        (∀ v ∈ (enqueueLinks W cfg base u d ls st).queue.map Prod.fst,
          v ∈ (enqueueLinks W cfg base u d ls st).queued) ∧
        (∀ v ∈ (enqueueLinks W cfg base u d ls st).queue.map Prod.fst,
          v ∉ (enqueueLinks W cfg base u d ls st).visited) := by
  intro ls
  induction ls with
  | nil => intro st h₁ h₂ h₃ h₄; exact ⟨h₁, h₂, h₃, h₄⟩
  | cons l ls ih =>
    intro st h₁ h₂ h₃ h₄
    simp only [enqueueLinks]
    by_cases hs : shouldCrawlUrl W (W.normalize l u) base st.visited st.queued = true
    · obtain ⟨hnv, hnq⟩ := shouldCrawlUrl_not_seen hs
      simp only [hs, if_true]
      have h₁' : ∀ e ∈ st.queue ++ [(W.normalize l u, d + 1)], e.2 ≤ cfg.max_depth := by
        intro e he
        rcases List.mem_append.1 he with he | he
        · exact h₁ e he
        · simp only [List.mem_singleton] at he
          rw [he]
          exact hdep
      have h₂' : ((st.queue ++ [(W.normalize l u, d + 1)]).map Prod.fst).Nodup := by
        rw [List.map_append]
        simp only [List.map_cons, List.map_nil]
        rw [List.nodup_append]
        refine ⟨h₂, List.nodup_singleton _, ?_⟩
        intro v hv hv₂
        simp at hv₂
        rw [hv₂] at hv
        exact hnq (h₃ _ hv)
      have h₃' : ∀ v ∈ (st.queue ++ [(W.normalize l u, d + 1)]).map Prod.fst,
          v ∈ W.normalize l u :: st.queued := by
        intro v hv
        rw [List.map_append] at hv
        rcases List.mem_append.1 hv with hv | hv
        · exact List.mem_cons_of_mem _ (h₃ v hv)
        · simp only [List.map_cons, List.map_nil, List.mem_singleton] at hv
          rw [hv]
          exact List.mem_cons_self ..
      have h₄' : ∀ v ∈ (st.queue ++ [(W.normalize l u, d + 1)]).map Prod.fst,
          v ∉ st.visited := by
        intro v hv
        rw [List.map_append] at hv
        rcases List.mem_append.1 hv with hv | hv
        · exact h₄ v hv
        · simp only [List.map_cons, List.map_nil, List.mem_singleton] at hv
          rw [hv]
          exact hnv
      by_cases hb : cfg.max_pages ≤
          (st.queue ++ [(W.normalize l u, d + 1)]).length + st.visited.length
      · simp only [if_pos hb]
        exact ⟨h₁', h₂', h₃', h₄'⟩
      · simp only [if_neg hb]
        exact ih _ h₁' h₂' h₃' h₄'
    · simp only [Bool.not_eq_true] at hs
      simp only [hs, Bool.false_eq_true, if_false]
      exact ih st h₁ h₂ h₃ h₄

theorem addIfAbsent_of_not_mem {u : String} {l : List String} (h : u ∉ l) :
    addIfAbsent u l = u :: l := by
  unfold addIfAbsent
  rw [if_neg]
  intro hc
  exact h (by simpa [List.contains, List.elem_iff] using hc)

theorem crawlInv_enqueueLinks {W : WebOracle} {cfg : CrawlConfig} {base u : String}
    {d : Nat} (hdep : d + 1 ≤ cfg.max_depth) {ls : List String} {st : CrawlSt}
    (hinv : CrawlInv cfg st) : CrawlInv cfg (enqueueLinks W cfg base u d ls st) := by
  obtain ⟨hc₁, hc₂, hc₃, hc₄⟩ := enqueueLinks_const W cfg base u d ls st
  obtain ⟨hq₁, hq₂, hq₃, hq₄⟩ := enqueueLinks_queue_inv W cfg base u d hdep ls st
    hinv.qdepth hinv.qnodup hinv.qsub hinv.qvis
  refine ⟨hq₁, hq₂, hq₃, hq₄, ?_, ?_, ?_, ?_, ?_, ?_⟩
  · rw [hc₂, hc₁]; exact hinv.pvis
  · rw [hc₂]; exact hinv.pnodup
  · rw [hc₂]; exact hinv.plen
  · rw [hc₂]; exact hinv.pdepth
  · rw [hc₃, hc₂]; exact hinv.failedSpec
  · rw [hc₂, hc₄]; exact hinv.ghost

theorem crawlInv_record {cfg : CrawlConfig} {st : CrawlSt} {p : CrawledPage}
    {url : String} (hinv : CrawlInv cfg st) (hv : url ∉ st.visited)
    (hq : url ∉ st.queue.map Prod.fst) (hl : st.pages.length < cfg.max_pages)
    (hpu : p.url = url) (hpd : p.depth ≤ cfg.max_depth) :
    CrawlInv cfg
      { st with visited := addIfAbsent url st.visited,
                fetched := st.fetched ++ [url],
                pages := st.pages ++ [p],
                failed_urls :=
                  if p.success then st.failed_urls else st.failed_urls ++ [url] } := by
  have hvis : addIfAbsent url st.visited = url :: st.visited := addIfAbsent_of_not_mem hv
  have hpagesu : ∀ v ∈ st.pages.map CrawledPage.url, ¬(v = url) := by
    intro v hvm hvu
    obtain ⟨p₀, hp₀, hp₀u⟩ := List.mem_map.1 hvm
    exact hv (hvu ▸ hp₀u ▸ hinv.pvis p₀ hp₀)
  refine ⟨hinv.qdepth, hinv.qnodup, hinv.qsub, ?_, ?_, ?_, ?_, ?_, ?_, ?_⟩
  · intro v hvm
    rw [hvis]
    intro hmem
    rcases List.mem_cons.1 hmem with rfl | hmem
    · exact hq hvm
    · exact hinv.qvis v hvm hmem
  · intro p₀ hp₀
    rw [hvis]
    rcases List.mem_append.1 hp₀ with hp₀ | hp₀
    · exact List.mem_cons_of_mem _ (hinv.pvis p₀ hp₀)
    · simp only [List.mem_singleton] at hp₀
      rw [hp₀, hpu]
      exact List.mem_cons_self ..
  · rw [List.map_append]
    simp only [List.map_cons, List.map_nil]
    rw [List.nodup_append]
    refine ⟨hinv.pnodup, List.nodup_singleton _, ?_⟩
    intro v hvm hvm₂
    simp only [List.mem_singleton] at hvm₂
    exact hpagesu v hvm (hvm₂.trans hpu)
  · rw [List.length_append]
    simpa using hl
  · intro p₀ hp₀
    rcases List.mem_append.1 hp₀ with hp₀ | hp₀
    · exact hinv.pdepth p₀ hp₀
    · simp only [List.mem_singleton] at hp₀
      rw [hp₀]
      exact hpd
  · rw [List.filter_append, List.map_append, ← hinv.failedSpec]
    cases hps : p.success with
    | true => simp [hps]
    | false => simp [hps, hpu]
  · rw [List.map_append, hinv.ghost]
    simp [hpu]

theorem visitStep_inv {W : WebOracle} {cfg : CrawlConfig} {base : String}
    {url : String} {depth : Nat} {st : CrawlSt} (hinv : CrawlInv cfg st)
    (hv : url ∉ st.visited) (hq : url ∉ st.queue.map Prod.fst)
    (hd : depth ≤ cfg.max_depth) (hl : st.pages.length < cfg.max_pages) :
    CrawlInv cfg (visitStep W cfg base url depth st) := by
  simp only [visitStep]
  by_cases hok : fetchOk (W.fetch url) = true
  · simp only [hok, if_true]
    by_cases hdep : depth < cfg.max_depth
    · simp only [if_pos hdep]
      exact crawlInv_enqueueLinks hdep
        (crawlInv_record (p :=
          { url := url,
            title := (if st.pages.length = 0 &&
                  (W.parse ((W.fetch url).content.getD "") url).isSpa &&
                  cfg.use_playwright then
                match W.render url with
                | some h => if h = "" then
                    (W.parse ((W.fetch url).content.getD "") url,
                      (W.fetch url).content.getD "")
                  else (W.parse h url, h)
                | none => (W.parse ((W.fetch url).content.getD "") url,
                    (W.fetch url).content.getD "")
              else (W.parse ((W.fetch url).content.getD "") url,
                (W.fetch url).content.getD "")).1.title,
            success := true,
            status_code := (W.fetch url).status_code,
            content := some (if st.pages.length = 0 &&
                  (W.parse ((W.fetch url).content.getD "") url).isSpa &&
                  cfg.use_playwright then
                match W.render url with
                | some h => if h = "" then
                    (W.parse ((W.fetch url).content.getD "") url,
                      (W.fetch url).content.getD "")
                  else (W.parse h url, h)
                | none => (W.parse ((W.fetch url).content.getD "") url,
                    (W.fetch url).content.getD "")
              else (W.parse ((W.fetch url).content.getD "") url,
                (W.fetch url).content.getD "")).2,
            doc := some (if st.pages.length = 0 &&
                  (W.parse ((W.fetch url).content.getD "") url).isSpa &&
                  cfg.use_playwright then
                match W.render url with
                | some h => if h = "" then
                    (W.parse ((W.fetch url).content.getD "") url,
                      (W.fetch url).content.getD "")
                  else (W.parse h url, h)
                | none => (W.parse ((W.fetch url).content.getD "") url,
                    (W.fetch url).content.getD "")
              else (W.parse ((W.fetch url).content.getD "") url,
                (W.fetch url).content.getD "")).1,
            depth := depth,
            elapsed_ms := (W.fetch url).elapsed_ms,
            from_cache := (W.fetch url).from_cache })
          hinv hv hq hl rfl hd)
    · simp only [if_neg hdep]
      exact crawlInv_record hinv hv hq hl rfl hd
  · simp only [hok, Bool.false_eq_true, if_false]
    exact crawlInv_record (p :=
      { url := url, success := false, status_code := (W.fetch url).status_code,
        depth := depth }) hinv hv hq hl rfl hd

theorem crawlInv_pop {cfg : CrawlConfig} {st : CrawlSt} {url : String} {depth : Nat}
    {rest : List (String × Nat)} (hinv : CrawlInv cfg st)
    (hq : st.queue = (url, depth) :: rest) : CrawlInv cfg { st with queue := rest } := by
  refine ⟨?_, ?_, ?_, ?_, hinv.pvis, hinv.pnodup, hinv.plen, hinv.pdepth,
    hinv.failedSpec, hinv.ghost⟩
  · intro e he
    exact hinv.qdepth e (hq ▸ List.mem_cons_of_mem _ he)
  · have := hinv.qnodup
    rw [hq] at this
    exact (List.nodup_cons.1 this).2
  · intro v hv
    exact hinv.qsub v (by rw [hq]; exact List.mem_cons_of_mem _ hv)
  · intro v hv
    exact hinv.qvis v (by rw [hq]; exact List.mem_cons_of_mem _ hv)

theorem crawlLoop_succ_nil {W : WebOracle} {cfg : CrawlConfig} {base : String}
    {n : Nat} {st : CrawlSt} (hq : st.queue = []) :
    crawlLoop W cfg base (n + 1) st = st := by
  simp only [crawlLoop, hq]

theorem crawlLoop_succ_cons {W : WebOracle} {cfg : CrawlConfig} {base : String}
    {n : Nat} {st : CrawlSt} {url : String} {depth : Nat}
    {rest : List (String × Nat)} (hq : st.queue = (url, depth) :: rest) :
    crawlLoop W cfg base (n + 1) st =
      if cfg.max_pages ≤ st.pages.length then st
      else if cfg.max_depth < depth then
        crawlLoop W cfg base n { st with queue := rest }
      else crawlLoop W cfg base n
        (visitStep W cfg base url depth { st with queue := rest }) := by
  simp only [crawlLoop, hq]

theorem crawlLoop_inv (W : WebOracle) (cfg : CrawlConfig) (base : String) :
    ∀ (fuel : Nat) (st : CrawlSt), CrawlInv cfg st →
      CrawlInv cfg (crawlLoop W cfg base fuel st) := by
  intro fuel
  induction fuel with
  | zero => intro st h; exact h
  | succ n ih =>
    intro st h
    cases hq : st.queue with
    | nil => rw [crawlLoop_succ_nil hq]; exact h
    | cons e rest =>
      obtain ⟨url, depth⟩ := e
      rw [crawlLoop_succ_cons hq]
      by_cases hp : cfg.max_pages ≤ st.pages.length
      · rw [if_pos hp]
        exact h
      · rw [if_neg hp]
        have hrest : CrawlInv cfg { st with queue := rest } := crawlInv_pop h hq
        have hurl : url ∈ st.queue.map Prod.fst := by rw [hq]; simp
        have hv : url ∉ st.visited := h.qvis url hurl
        have hqr : url ∉ rest.map Prod.fst := by
          have := h.qnodup
          rw [hq] at this
          simpa using (List.nodup_cons.1 this).1
        by_cases hdep : cfg.max_depth < depth
        · rw [if_pos hdep]
          exact ih _ hrest
        · rw [if_neg hdep]
          exact ih _ (visitStep_inv hrest hv hqr (not_lt.1 hdep) (not_le.1 hp))

theorem crawlLoop_of_full (W : WebOracle) (cfg : CrawlConfig) (base : String) :
    ∀ (n : Nat) (st : CrawlSt), cfg.max_pages ≤ st.pages.length →
      crawlLoop W cfg base n st = st := by
  intro n
  induction n with
  | zero => intro st _; rfl
  | succ n _ =>
    intro st h
    cases hq : st.queue with
    | nil => exact crawlLoop_succ_nil hq
    | cons e rest =>
      obtain ⟨url, depth⟩ := e
      rw [crawlLoop_succ_cons hq, if_pos h]

theorem enqueueLinks_qdepth (W : WebOracle) (cfg : CrawlConfig) (base u : String)
    (d : Nat) (hdep : d + 1 ≤ cfg.max_depth) :
    ∀ (ls : List String) (st : CrawlSt), (∀ e ∈ st.queue, e.2 ≤ cfg.max_depth) →
      ∀ e ∈ (enqueueLinks W cfg base u d ls st).queue, e.2 ≤ cfg.max_depth := by
  intro ls
  induction ls with
  | nil => intro st h; exact h
  | cons l ls ih =>
    intro st h
    simp only [enqueueLinks]
    by_cases hs : shouldCrawlUrl W (W.normalize l u) base st.visited st.queued = true
    · simp only [hs, if_true]
      have h' : ∀ e ∈ st.queue ++ [(W.normalize l u, d + 1)], e.2 ≤ cfg.max_depth := by
        intro e he
        rcases List.mem_append.1 he with he | he
        · exact h e he
        · simp only [List.mem_singleton] at he
          rw [he]
          exact hdep
      by_cases hb : cfg.max_pages ≤
          (st.queue ++ [(W.normalize l u, d + 1)]).length + st.visited.length
      · simp only [if_pos hb]
        exact h'
      · simp only [if_neg hb]
        exact ih _ h'
    · simp only [Bool.not_eq_true] at hs
      simp only [hs, Bool.false_eq_true, if_false]
      exact ih st h

theorem visitStep_qdepth {W : WebOracle} {cfg : CrawlConfig} {base url : String}
    {depth : Nat} {st : CrawlSt} (h : ∀ e ∈ st.queue, e.2 ≤ cfg.max_depth) :
    ∀ e ∈ (visitStep W cfg base url depth st).queue, e.2 ≤ cfg.max_depth := by
  simp only [visitStep]
  by_cases hok : fetchOk (W.fetch url) = true
  · simp only [hok, if_true]
    by_cases hdep : depth < cfg.max_depth
    · simp only [if_pos hdep]
      exact enqueueLinks_qdepth W cfg base url depth hdep _ _ h
    · simp only [if_neg hdep]
      exact h
  · simp only [hok, Bool.false_eq_true, if_false]
    exact h

theorem visitStep_pages_len (W : WebOracle) (cfg : CrawlConfig) (base url : String)
    (depth : Nat) (st : CrawlSt) :
    (visitStep W cfg base url depth st).pages.length = st.pages.length + 1 := by
  simp only [visitStep]
  by_cases hok : fetchOk (W.fetch url) = true
  · simp only [hok, if_true]
    by_cases hdep : depth < cfg.max_depth
    · simp only [if_pos hdep]
      rw [(enqueueLinks_const W cfg base url depth _ _).2.1]
      simp
    · simp only [if_neg hdep]
      simp
  · simp only [hok, Bool.false_eq_true, if_false]
    simp

theorem crawlLoop_stable (W : WebOracle) (cfg : CrawlConfig) (base : String) :
    ∀ (fuel : Nat) (st : CrawlSt), (∀ e ∈ st.queue, e.2 ≤ cfg.max_depth) →
      cfg.max_pages + 1 ≤ st.pages.length + fuel →
      ∀ m, crawlLoop W cfg base (fuel + m) st = crawlLoop W cfg base fuel st := by
  intro fuel
  induction fuel with
  | zero =>
    intro st _ hfull m
    have hge : cfg.max_pages ≤ st.pages.length := by omega
    have h0 : 0 + m = m := Nat.zero_add m
    rw [h0, crawlLoop_of_full W cfg base m st hge]
    rfl
  | succ n ih =>
    intro st hqd hfuel m
    have harith : n + 1 + m = (n + m) + 1 := by omega
    rw [harith]
    cases hq : st.queue with
    | nil => rw [crawlLoop_succ_nil hq, crawlLoop_succ_nil hq]
    | cons e rest =>
      obtain ⟨url, depth⟩ := e
      rw [crawlLoop_succ_cons hq, crawlLoop_succ_cons hq]
      by_cases hp : cfg.max_pages ≤ st.pages.length
      · rw [if_pos hp, if_pos hp]
      · rw [if_neg hp, if_neg hp]
        by_cases hdep : cfg.max_depth < depth
        · exfalso
          have := hqd (url, depth) (by rw [hq]; exact List.mem_cons_self ..)
          simp at this
          omega
        · rw [if_neg hdep, if_neg hdep]
          apply ih
          · apply visitStep_qdepth
            intro e he
            exact hqd e (by rw [hq]; exact List.mem_cons_of_mem _ he)
          · rw [visitStep_pages_len]
            have hrec : ({ st with queue := rest } : CrawlSt).pages.length =
              st.pages.length := rfl
            rw [hrec]
            omega

/-- C5: for every oracle world, configuration, and start URL, the crawl's
pages list has length at most `max_pages` and no page exceeds `max_depth`;
and the BFS loop terminates — fuel `max_pages + 1` is always enough, so
adding any more fuel never changes the outcome (the loop has reached its
exit condition within that many iterations). -/
theorem claim_C5_crawl_budgets (W : WebOracle) (cfg : CrawlConfig) (s : String) :
    (WebCrawler.crawl W cfg s).pages.length ≤ cfg.max_pages ∧
      (∀ p ∈ (WebCrawler.crawl W cfg s).pages, p.depth ≤ cfg.max_depth) ∧
      ∀ n, crawlLoop W cfg (W.schemeNetloc (W.normalize s s)) (cfg.max_pages + 1 + n)
          (crawlInit W s) = crawlFinal W cfg s := by
  have hinit : CrawlInv cfg (crawlInit W s) := by
    refine ⟨?_, ?_, ?_, ?_, ?_, ?_, ?_, ?_, rfl, rfl⟩
    · intro e he
      simp only [crawlInit, List.mem_singleton] at he
      rw [he]
      exact Nat.zero_le _
    · simp [crawlInit]
    · intro v hv
      simp only [crawlInit, List.map_cons, List.map_nil, List.mem_singleton] at hv
      simp [crawlInit, hv]
    · intro v _
      simp [crawlInit]
    · intro p hp
      simp [crawlInit] at hp
    · simp [crawlInit]
    · simp [crawlInit]
    · intro p hp
      simp [crawlInit] at hp
  have hfin : CrawlInv cfg (crawlFinal W cfg s) :=
    crawlLoop_inv W cfg _ _ _ hinit
  refine ⟨hfin.plen, hfin.pdepth, ?_⟩
  intro n
  exact crawlLoop_stable W cfg _ (cfg.max_pages + 1) (crawlInit W s)
    hinit.qdepth (by simp [crawlInit]) n

/-- C6: every crawl produces at most one `CrawledPage` per normalized URL
(the page URLs are pairwise distinct), the failed URLs are exactly the URLs
of the unsuccessful pages in order, the ghost fetch log shows each fetched
URL becomes exactly one page in fetch order, and a failed fetch contributes
nothing to the queue or the queued set — only a failed page and a
`failed_urls` entry. -/
theorem claim_C6_page_accounting (W : WebOracle) (cfg : CrawlConfig) :
    (∀ s,
      ((WebCrawler.crawl W cfg s).pages.map CrawledPage.url).Nodup ∧
        (WebCrawler.crawl W cfg s).failed_urls =
          ((WebCrawler.crawl W cfg s).pages.filter
            (fun p => !p.success)).map CrawledPage.url ∧
        (crawlFinal W cfg s).pages.map CrawledPage.url = (crawlFinal W cfg s).fetched) ∧
      ∀ (base url : String) (depth : Nat) (st : CrawlSt),
        fetchOk (W.fetch url) = false →
          (visitStep W cfg base url depth st).queue = st.queue ∧
            (visitStep W cfg base url depth st).queued = st.queued ∧
            (visitStep W cfg base url depth st).pages = st.pages ++
              [{ url := url, success := false,
                 status_code := (W.fetch url).status_code, depth := depth }] ∧
            (visitStep W cfg base url depth st).failed_urls =
              st.failed_urls ++ [url] := by
  constructor
  · intro s
    have hinit : CrawlInv cfg (crawlInit W s) := by
      refine ⟨?_, ?_, ?_, ?_, ?_, ?_, ?_, ?_, rfl, rfl⟩
      · intro e he
        simp only [crawlInit, List.mem_singleton] at he
        rw [he]
        exact Nat.zero_le _
      · simp [crawlInit]
      · intro v hv
        simp only [crawlInit, List.map_cons, List.map_nil, List.mem_singleton] at hv
        simp [crawlInit, hv]
      · intro v _
        simp [crawlInit]
      · intro p hp
        simp [crawlInit] at hp
      · simp [crawlInit]
      · simp [crawlInit]
      · intro p hp
        simp [crawlInit] at hp
    have hfin : CrawlInv cfg (crawlFinal W cfg s) :=
      crawlLoop_inv W cfg _ _ _ hinit
    exact ⟨hfin.pnodup, hfin.failedSpec, hfin.ghost⟩
  · intro base url depth st hok
    simp only [visitStep, hok, Bool.false_eq_true, if_false]
    refine ⟨?_, ?_, ?_, ?_⟩ <;> trivial

/-- Witness for C6: the failed-fetch conjunct at a concrete all-failing
oracle world and a concrete state. -/
theorem claim_C6_witness :
    (visitStep oracleAllFail cfgSmall "http://e.com" "http://e.com/a" 0
        ⟨[], [], [], [], [], []⟩).queue = [] ∧
      (visitStep oracleAllFail cfgSmall "http://e.com" "http://e.com/a" 0
        ⟨[], [], [], [], [], []⟩).queued = [] ∧
      (visitStep oracleAllFail cfgSmall "http://e.com" "http://e.com/a" 0
        ⟨[], [], [], [], [], []⟩).pages = [] ++
        [{ url := "http://e.com/a", success := false,
           status_code := (oracleAllFail.fetch "http://e.com/a").status_code,
           depth := 0 }] ∧
      (visitStep oracleAllFail cfgSmall "http://e.com" "http://e.com/a" 0
        ⟨[], [], [], [], [], []⟩).failed_urls = [] ++ ["http://e.com/a"] :=
  (claim_C6_page_accounting oracleAllFail cfgSmall).2 "http://e.com" "http://e.com/a" 0
    ⟨[], [], [], [], [], []⟩ (by with_unfolding_all decide)

set_option maxRecDepth 100000 in
/-- Witness for C5 at a concrete oracle world: the crawl of an all-failing
site produces one failed page within both budgets. -/
theorem claim_C5_witness :
    (WebCrawler.crawl oracleAllFail cfgSmall "http://e.com/").pages.length ≤
        cfgSmall.max_pages ∧
      ({ url := "http://e.com/", success := false, status_code := some 503,
         depth := 0 } : CrawledPage).depth ≤ cfgSmall.max_depth :=
  ⟨(claim_C5_crawl_budgets oracleAllFail cfgSmall "http://e.com/").1,
   (claim_C5_crawl_budgets oracleAllFail cfgSmall "http://e.com/").2.1 _
     (by with_unfolding_all decide)⟩
